import Mathlib

/-!
Shallow embedding of the Path ORAM engine from `src/path_oram.h`, together
with theorems settling the specification claims.

The C++ template parameters `HeightL`, `BlockSizeB`, `BucketSizeZ` are
collected in a `Params` structure; the fixed-size machine arrays become Lean
lists; the Mersenne-Twister engine combined with
`uniform_int_distribution<size_t>{0, bucket_count/2}` is modelled as a stream
`Nat → Nat` of raw draws, a single draw being mapped into the inclusive range
`[0, bucket_count/2]` by reduction modulo `bucket_count/2 + 1`.
-/

namespace PathORAM

/-- Template parameters of the `PathORAM` class template. -/
structure Params where
  heightL : Nat
  blockSizeB : Nat
  bucketSizeZ : Nat
deriving Repr, DecidableEq

/-- Sentinel `IDBlock::invalid_block = std::numeric_limits<uint64_t>::max()`
marking an empty slot. -/
def invalid_block : Nat := 2 ^ 64 - 1

/-- Block payload `std::array<uint8_t, BlockSizeB>`, modelled as a list of bytes. -/
abbrev Block := List Nat

/-- Constant `bucket_count = (1ull << (HeightL + 1)) - 1`. -/
def Params.bucket_count (p : Params) : Nat := 2 ^ (p.heightL + 1) - 1

/-- Number of leaves of the tree, `2 ^ HeightL`.  Leaves occupy the heap
indices `[leaf_count - 1, bucket_count)`. -/
def Params.leaf_count (p : Params) : Nat := 2 ^ p.heightL

/-- Constant `block_count_N = BucketSizeZ * bucket_count`. -/
def Params.block_count_N (p : Params) : Nat := p.bucketSizeZ * p.bucket_count

/-- Zero-filled payload, the value of a value-initialized `Block`. -/
def Params.zero_block (p : Params) : Block := List.replicate p.blockSizeB 0

/-- Struct `IDBlock`: a block id (`invalid_block` marks an empty slot) and the
block's payload. -/
structure IDBlock where
  id : Nat
  data : Block
deriving Repr, DecidableEq

/-- Default-constructed `IDBlock`: `id = invalid_block`, `data = {0}`. -/
def Params.empty_slot (p : Params) : IDBlock :=
  { id := invalid_block, data := p.zero_block }

/-- Body of the loop in `getNodeOnPath`: `leaf = ((leaf + 1) / 2) - 1`, the
step from a heap index to the heap index of its parent. -/
def parentStep (i : Nat) : Nat := (i + 1) / 2 - 1

/-- Function `getNodeOnPath(leaf, height)`: the heap index of the node at level
`height` on the path from the root to leaf number `leaf`.  The code starts at
the heap index `leaf + bucket_count / 2` of the leaf and applies the parent
step once for each loop iteration `l = HeightL - 1, …, height`, i.e.
`HeightL - height` times. -/
def getNodeOnPath (p : Params) (leaf height : Nat) : Nat :=
  parentStep^[p.heightL - height] (leaf + p.bucket_count / 2)

theorem bucket_count_div_two (p : Params) : p.bucket_count / 2 = p.leaf_count - 1 := by
  have h : 2 ^ (p.heightL + 1) = 2 ^ p.heightL * 2 := pow_succ 2 p.heightL
  have h2 : 1 ≤ 2 ^ p.heightL := Nat.one_le_two_pow
  simp only [Params.bucket_count, Params.leaf_count]
  omega

theorem leaf_count_pos (p : Params) : 0 < p.leaf_count :=
  Nat.pos_pow_of_pos _ (by omega)

theorem bucket_count_eq (p : Params) : p.bucket_count = 2 * p.leaf_count - 1 := by
  have h : 2 ^ (p.heightL + 1) = 2 ^ p.heightL * 2 := pow_succ 2 p.heightL
  simp only [Params.bucket_count, Params.leaf_count]
  omega

theorem parentStep_bounds {k x : Nat} (h1 : 2 ^ (k + 1) - 1 ≤ x)
    (h2 : x < 2 ^ (k + 2) - 1) :
    2 ^ k - 1 ≤ parentStep x ∧ parentStep x < 2 ^ (k + 1) - 1 := by
  have e1 : 2 ^ (k + 1) = 2 ^ k * 2 := pow_succ 2 k
  have e2 : 2 ^ (k + 2) = 2 ^ (k + 1) * 2 := pow_succ 2 (k + 1)
  have h3 : 1 ≤ 2 ^ k := Nat.one_le_two_pow
  unfold parentStep
  omega

theorem iterate_parentStep_bounds :
    ∀ (k h x : Nat), 2 ^ (h + k) - 1 ≤ x → x < 2 ^ (h + k + 1) - 1 →
      2 ^ h - 1 ≤ parentStep^[k] x ∧ parentStep^[k] x < 2 ^ (h + 1) - 1 := by
  intro k
  induction k with
  | zero =>
      intro h x h1 h2
      simp only [Function.iterate_zero, id_eq]
      constructor
      · simpa using h1
      · simpa using h2
  | succ k ih =>
      intro h x h1 h2
      rw [Function.iterate_succ_apply]
      have e1 : h + (k + 1) = (h + k) + 1 := by omega
      have e2 : h + (k + 1) + 1 = (h + k) + 2 := by omega
      rw [e1] at h1
      rw [e2] at h2
      have hb := parentStep_bounds h1 h2
      exact ih h (parentStep x) hb.1 hb.2

theorem getNodeOnPath_level_bounds (p : Params) {l h : Nat}
    (hl : l < p.leaf_count) (hh : h ≤ p.heightL) :
    2 ^ h - 1 ≤ getNodeOnPath p l h ∧ getNodeOnPath p l h < 2 ^ (h + 1) - 1 := by
  have hk : p.heightL = h + (p.heightL - h) := by omega
  have hx1 : 2 ^ (h + (p.heightL - h)) - 1 ≤ l + p.bucket_count / 2 := by
    rw [bucket_count_div_two, ← hk]
    have := leaf_count_pos p
    simp only [Params.leaf_count] at *
    omega
  have hx2 : l + p.bucket_count / 2 < 2 ^ (h + (p.heightL - h) + 1) - 1 := by
    rw [bucket_count_div_two, ← hk]
    have := leaf_count_pos p
    simp only [Params.leaf_count] at *
    have hpow : 2 ^ (p.heightL + 1) = 2 ^ p.heightL * 2 := pow_succ 2 p.heightL
    omega
  exact iterate_parentStep_bounds (p.heightL - h) h (l + p.bucket_count / 2) hx1 hx2

theorem getNodeOnPath_lt_bucket_count (p : Params) {l h : Nat}
    (hl : l < p.leaf_count) (hh : h ≤ p.heightL) :
    getNodeOnPath p l h < p.bucket_count := by
  have hb := (getNodeOnPath_level_bounds p hl hh).2
  have hmono : 2 ^ (h + 1) ≤ 2 ^ (p.heightL + 1) :=
    Nat.pow_le_pow_right (by omega) (by omega)
  simp only [Params.bucket_count]
  omega

theorem getNodeOnPath_leaf (p : Params) (l : Nat) :
    getNodeOnPath p l p.heightL = l + p.leaf_count - 1 := by
  have h := leaf_count_pos p
  simp only [getNodeOnPath, Nat.sub_self, Function.iterate_zero, id_eq,
    bucket_count_div_two]
  omega

theorem getNodeOnPath_root (p : Params) {l : Nat} (hl : l < p.leaf_count) :
    getNodeOnPath p l 0 = 0 := by
  have hb := (getNodeOnPath_level_bounds p hl (Nat.zero_le _)).2
  omega

theorem getNodeOnPath_succ (p : Params) {l h : Nat} (hh : h < p.heightL) :
    getNodeOnPath p l h = parentStep (getNodeOnPath p l (h + 1)) := by
  have hk : p.heightL - h = (p.heightL - (h + 1)) + 1 := by omega
  simp only [getNodeOnPath, hk, Function.iterate_succ_apply']

/-- Nodes of one path at different levels are different heap indices (their
level ranges `[2^h - 1, 2^(h+1) - 1)` are disjoint). -/
theorem getNodeOnPath_level_injective (p : Params) {l l' h h' : Nat}
    (hl : l < p.leaf_count) (hl' : l' < p.leaf_count)
    (hh : h ≤ p.heightL) (hh' : h' ≤ p.heightL)
    (heq : getNodeOnPath p l h = getNodeOnPath p l' h') : h = h' := by
  by_contra hne
  have b1 := getNodeOnPath_level_bounds p hl hh
  have b2 := getNodeOnPath_level_bounds p hl' hh'
  rcases Nat.lt_or_ge h h' with hlt | hge
  · have hmono : 2 ^ (h + 1) ≤ 2 ^ h' := Nat.pow_le_pow_right (by omega) (by omega)
    have h1 : 1 ≤ 2 ^ h := Nat.one_le_two_pow
    omega
  · have hlt : h' < h := by omega
    have hmono : 2 ^ (h' + 1) ≤ 2 ^ h := Nat.pow_le_pow_right (by omega) (by omega)
    have h1 : 1 ≤ 2 ^ h' := Nat.one_le_two_pow
    omega

/-- C8: path-index laws.  For every leaf `l < leaf_count`:
`getNodeOnPath(l, HeightL)` is the heap index `l + leaf_count - 1` of leaf `l`;
`getNodeOnPath(l, 0) = 0`; and for `h < HeightL` the node at level `h` is the
heap parent `(i - 1) / 2` of the node at level `h + 1`. -/
theorem c8_path_index_laws (p : Params) (l : Nat) (hl : l < p.leaf_count) :
    getNodeOnPath p l p.heightL = l + p.leaf_count - 1 ∧
    getNodeOnPath p l 0 = 0 ∧
    ∀ h, h < p.heightL →
      getNodeOnPath p l h = (getNodeOnPath p l (h + 1) - 1) / 2 := by
  refine ⟨getNodeOnPath_leaf p l, getNodeOnPath_root p hl, ?_⟩
  intro h hh
  have hb := (getNodeOnPath_level_bounds p hl (by omega : h + 1 ≤ p.heightL)).1
  have h1 : 1 ≤ 2 ^ (h + 1) := Nat.one_le_two_pow
  rw [getNodeOnPath_succ p hh]
  unfold parentStep
  omega

/-- Witness for `c8_path_index_laws` at `HeightL = 2`, leaf `l = 3`. -/
theorem c8_path_index_laws_witness :
    (3 : Nat) < (Params.mk 2 1 1).leaf_count ∧
      (getNodeOnPath (Params.mk 2 1 1) 3 (Params.mk 2 1 1).heightL =
          3 + (Params.mk 2 1 1).leaf_count - 1 ∧
        getNodeOnPath (Params.mk 2 1 1) 3 0 = 0 ∧
        ∀ h, h < (Params.mk 2 1 1).heightL →
          getNodeOnPath (Params.mk 2 1 1) 3 h =
            (getNodeOnPath (Params.mk 2 1 1) 3 (h + 1) - 1) / 2) :=
  ⟨by decide, c8_path_index_laws (Params.mk 2 1 1) 3 (by decide)⟩

/-! ### Stash: `std::map<size_t, Block>` as a key-sorted association list -/

/-- Lookup of key `k` in the stash. -/
def stashFind? (k : Nat) : List (Nat × Block) → Option Block
  | [] => none
  | e :: rest => if e.1 = k then some e.2 else stashFind? k rest

/-- Operation `std::map::emplace`: insert `(k, v)` keeping the list sorted by
key; if key `k` is already present the map is left unchanged. -/
def stashEmplace (k : Nat) (v : Block) : List (Nat × Block) → List (Nat × Block)
  | [] => [(k, v)]
  | e :: rest =>
      if k < e.1 then (k, v) :: e :: rest
      else if k = e.1 then e :: rest
      else e :: stashEmplace k v rest

/-- Assignment `stash[k] = v` through `std::map::operator[]`: insert or
overwrite the binding of key `k`. -/
def stashAssign (k : Nat) (v : Block) : List (Nat × Block) → List (Nat × Block)
  | [] => [(k, v)]
  | e :: rest =>
      if k < e.1 then (k, v) :: e :: rest
      else if k = e.1 then (k, v) :: rest
      else e :: stashAssign k v rest

/-- Operation `std::map::erase(k)`. -/
def stashErase (k : Nat) : List (Nat × Block) → List (Nat × Block)
  | [] => []
  | e :: rest => if e.1 = k then rest else e :: stashErase k rest

/-- Read of `stash[k]` through `std::map::operator[]`: if key `k` is absent, a
value-initialized (zero-filled) block is inserted first.  Returns the block
read and the updated map. -/
def stashGetDefault (p : Params) (k : Nat) (st : List (Nat × Block)) :
    Block × List (Nat × Block) :=
  match stashFind? k st with
  | some v => (v, st)
  | none => (p.zero_block, stashEmplace k p.zero_block st)

/-- Well-formedness of the `std::map` model: strictly increasing keys. -/
def stashSorted (st : List (Nat × Block)) : Prop :=
  List.Pairwise (fun a b => a.1 < b.1) st

theorem stashSorted_nil : stashSorted [] := List.Pairwise.nil

theorem stashFind?_isSome_iff (k : Nat) (st : List (Nat × Block)) :
    (stashFind? k st).isSome ↔ k ∈ st.map Prod.fst := by
  induction st with
  | nil => simp [stashFind?]
  | cons e rest ih =>
      by_cases h : e.1 = k
      · simp [stashFind?, h]
      · simp only [stashFind?, h, if_false, List.map_cons, List.mem_cons, ih]
        constructor
        · intro hx; exact Or.inr hx
        · rintro (hx | hx)
          · exact absurd hx.symm h
          · exact hx

theorem stashFind?_eq_none_iff (k : Nat) (st : List (Nat × Block)) :
    stashFind? k st = none ↔ k ∉ st.map Prod.fst := by
  rw [← stashFind?_isSome_iff]
  cases stashFind? k st <;> simp

theorem stashEmplace_mem {k : Nat} {v : Block} {st : List (Nat × Block)} :
    ∀ x ∈ stashEmplace k v st, x = (k, v) ∨ x ∈ st := by
  induction st with
  | nil => simp [stashEmplace]
  | cons e rest ih =>
      intro x hx
      simp only [stashEmplace] at hx
      by_cases h1 : k < e.1
      · simp only [if_pos h1, List.mem_cons] at hx
        rcases hx with h | h | h
        · exact Or.inl h
        · exact Or.inr (by simp [h])
        · exact Or.inr (List.mem_cons_of_mem _ h)
      · by_cases h2 : k = e.1
        · simp only [if_neg h1, if_pos h2, List.mem_cons] at hx
          rcases hx with h | h
          · exact Or.inr (by simp [h])
          · exact Or.inr (List.mem_cons_of_mem _ h)
        · simp only [if_neg h1, if_neg h2, List.mem_cons] at hx
          rcases hx with h | h
          · exact Or.inr (by simp [h])
          · rcases ih x h with h' | h'
            · exact Or.inl h'
            · exact Or.inr (List.mem_cons_of_mem _ h')

theorem stashAssign_mem {k : Nat} {v : Block} {st : List (Nat × Block)} :
    ∀ x ∈ stashAssign k v st, x = (k, v) ∨ x ∈ st := by
  induction st with
  | nil => simp [stashAssign]
  | cons e rest ih =>
      intro x hx
      simp only [stashAssign] at hx
      by_cases h1 : k < e.1
      · simp only [if_pos h1, List.mem_cons] at hx
        rcases hx with h | h | h
        · exact Or.inl h
        · exact Or.inr (by simp [h])
        · exact Or.inr (List.mem_cons_of_mem _ h)
      · by_cases h2 : k = e.1
        · simp only [if_neg h1, if_pos h2, List.mem_cons] at hx
          rcases hx with h | h
          · exact Or.inl h
          · exact Or.inr (List.mem_cons_of_mem _ h)
        · simp only [if_neg h1, if_neg h2, List.mem_cons] at hx
          rcases hx with h | h
          · exact Or.inr (by simp [h])
          · rcases ih x h with h' | h'
            · exact Or.inl h'
            · exact Or.inr (List.mem_cons_of_mem _ h')

theorem stashErase_sublist (k : Nat) (st : List (Nat × Block)) :
    List.Sublist (stashErase k st) st := by
  induction st with
  | nil => simp [stashErase]
  | cons e rest ih =>
      simp only [stashErase]
      by_cases h : e.1 = k
      · simp only [if_pos h]
        exact List.sublist_cons_self e rest
      · simpa [h] using List.Sublist.cons₂ e ih

theorem stashSorted_erase {k : Nat} {st : List (Nat × Block)}
    (hs : stashSorted st) : stashSorted (stashErase k st) :=
  hs.sublist (stashErase_sublist k st)

theorem stashSorted_emplace {k : Nat} {v : Block} {st : List (Nat × Block)}
    (hs : stashSorted st) : stashSorted (stashEmplace k v st) := by
  induction st with
  | nil => simp [stashEmplace, stashSorted]
  | cons e rest ih =>
      rcases hs with _ | ⟨he, hrest⟩
      simp only [stashEmplace]
      by_cases h1 : k < e.1
      · simp only [if_pos h1]
        refine List.Pairwise.cons ?_ (List.Pairwise.cons he hrest)
        intro x hx
        rcases List.mem_cons.mp hx with h | h
        · simpa [h] using h1
        · exact lt_trans h1 (he x h)
      · by_cases h2 : k = e.1
        · simp only [if_neg h1, if_pos h2]
          exact List.Pairwise.cons he hrest
        · simp only [if_neg h1, if_neg h2]
          refine List.Pairwise.cons ?_ (ih hrest)
          intro x hx
          rcases stashEmplace_mem x hx with h | h
          · simp only [h]; omega
          · exact he x h

theorem stashSorted_assign {k : Nat} {v : Block} {st : List (Nat × Block)}
    (hs : stashSorted st) : stashSorted (stashAssign k v st) := by
  induction st with
  | nil => simp [stashAssign, stashSorted]
  | cons e rest ih =>
      rcases hs with _ | ⟨he, hrest⟩
      simp only [stashAssign]
      by_cases h1 : k < e.1
      · simp only [if_pos h1]
        refine List.Pairwise.cons ?_ (List.Pairwise.cons he hrest)
        intro x hx
        rcases List.mem_cons.mp hx with h | h
        · simpa [h] using h1
        · exact lt_trans h1 (he x h)
      · by_cases h2 : k = e.1
        · simp only [if_neg h1, if_pos h2]
          refine List.Pairwise.cons ?_ hrest
          intro x hx
          have := he x hx
          omega
        · simp only [if_neg h1, if_neg h2]
          refine List.Pairwise.cons ?_ (ih hrest)
          intro x hx
          rcases stashAssign_mem x hx with h | h
          · simp only [h]; omega
          · exact he x h

theorem stashKeys_nodup {st : List (Nat × Block)} (hs : stashSorted st) :
    (st.map Prod.fst).Nodup := by
  rw [List.Nodup, List.pairwise_map]
  exact hs.imp (fun h => Nat.ne_of_lt h)

theorem stashFind?_head_rest {e : Nat × Block} {rest : List (Nat × Block)}
    (hs : stashSorted (e :: rest)) : stashFind? e.1 rest = none := by
  rcases hs with _ | ⟨he, _⟩
  rw [stashFind?_eq_none_iff]
  intro hmem
  rcases List.mem_map.mp hmem with ⟨x, hx, hx1⟩
  have := he x hx
  omega

theorem stashFind?_emplace_present {k : Nat} {v w : Block}
    {st : List (Nat × Block)} (hs : stashSorted st)
    (hf : stashFind? k st = some w) : stashEmplace k v st = st := by
  induction st with
  | nil => simp [stashFind?] at hf
  | cons e rest ih =>
      simp only [stashFind?] at hf
      by_cases h : e.1 = k
      · simp only [stashEmplace, if_neg (by omega : ¬k < e.1), if_pos h.symm]
      · simp only [if_neg h] at hf
        have hk : k ∈ rest.map Prod.fst := by
          rw [← stashFind?_isSome_iff, hf]; rfl
        rcases hs with _ | ⟨he, hrest⟩
        have hlt : e.1 < k := by
          rcases List.mem_map.mp hk with ⟨x, hx, hx1⟩
          have := he x hx
          omega
        simp only [stashEmplace, if_neg (by omega : ¬k < e.1),
          if_neg (by omega : ¬k = e.1)]
        rw [ih hrest hf]

theorem stashFind?_emplace_absent {k : Nat} {v : Block} {st : List (Nat × Block)}
    (hf : stashFind? k st = none) (k' : Nat) :
    stashFind? k' (stashEmplace k v st) =
      if k' = k then some v else stashFind? k' st := by
  induction st with
  | nil =>
      simp only [stashEmplace, stashFind?]
      by_cases h : k' = k
      · simp [h]
      · have h' : ¬k = k' := by omega
        simp [h, h']
  | cons e rest ih =>
      simp only [stashFind?] at hf
      by_cases h : e.1 = k
      · simp [h] at hf
      · simp only [if_neg h] at hf
        simp only [stashEmplace]
        by_cases h1 : k < e.1
        · simp only [if_pos h1, stashFind?]
          by_cases h2 : k' = k
          · simp [h2]
          · have h2' : ¬k = k' := by omega
            simp [h2, h2']
        · have hne : ¬k = e.1 := by omega
          simp only [if_neg h1, if_neg hne, stashFind?]
          by_cases h3 : e.1 = k'
          · have h2 : ¬k' = k := by omega
            simp [h3, h2]
          · simp only [if_neg h3]
            exact ih hf

theorem stashFind?_assign {k : Nat} {v : Block} (st : List (Nat × Block))
    (k' : Nat) :
    stashFind? k' (stashAssign k v st) =
      if k' = k then some v else stashFind? k' st := by
  induction st with
  | nil =>
      simp only [stashAssign, stashFind?]
      by_cases h : k' = k
      · simp [h]
      · have h' : ¬k = k' := by omega
        simp [h, h']
  | cons e rest ih =>
      simp only [stashAssign]
      by_cases h1 : k < e.1
      · simp only [if_pos h1, stashFind?]
        by_cases h2 : k' = k
        · simp [h2]
        · have h2' : ¬k = k' := by omega
          simp [h2, h2']
      · by_cases h2 : k = e.1
        · simp only [if_neg h1, if_pos h2, stashFind?]
          by_cases h3 : k' = k
          · simp [h3]
          · have h3' : ¬k = k' := by omega
            have h3'' : ¬e.1 = k' := by omega
            simp [h3, h3', h3'']
        · simp only [if_neg h1, if_neg h2, stashFind?]
          by_cases h3 : e.1 = k'
          · have hne : ¬k' = k := by omega
            simp [h3, hne]
          · simp only [if_neg h3]
            exact ih

theorem stashFind?_erase {k : Nat} {st : List (Nat × Block)}
    (hs : stashSorted st) (k' : Nat) :
    stashFind? k' (stashErase k st) =
      if k' = k then none else stashFind? k' st := by
  induction st with
  | nil => simp [stashErase, stashFind?]
  | cons e rest ih =>
      simp only [stashErase]
      by_cases h : e.1 = k
      · simp only [if_pos h, stashFind?]
        by_cases h2 : k' = k
        · have hh : e.1 = k' := by omega
          rw [if_pos h2, ← hh]
          exact stashFind?_head_rest hs
        · have hh : ¬e.1 = k' := by omega
          simp [h2, hh]
      · rcases hs with _ | ⟨he, hrest⟩
        simp only [if_neg h, stashFind?]
        by_cases h3 : e.1 = k'
        · have hne : ¬k' = k := by omega
          simp [h3, hne]
        · simp only [if_neg h3]
          exact ih hrest

/-! ### Engine state and the access protocol -/

/-- Observable physical effect of an access: the refresh of
`position_map[id]`, a bucket read, or a bucket write, in program order. -/
inductive Event where
  | remap (id : Nat)
  | bread (idx : Nat)
  | bwrite (idx : Nat)
deriving Repr, DecidableEq

/-- Enum `PathORAM::Op`. -/
inductive Op where
  | Read
  | Write
deriving Repr, DecidableEq

/-- Error surfaced by `access`: the `std::out_of_range` exception. -/
inductive OramError where
  | outOfRange
deriving Repr, DecidableEq

/-- State of the engine: bucket storage, position map, stash, and the stream
of raw draws remaining in the engine-owned RNG. -/
structure State where
  buckets : List (List IDBlock)
  position_map : List Nat
  stash : List (Nat × Block)
  rng : Nat → Nat

/-- Function `randomPath()`: one draw of
`uniform_int_distribution<size_t>{0, bucket_count/2}` from the engine RNG.
A raw draw `r` lands in the inclusive range `[0, bucket_count/2]` as
`r % (bucket_count/2 + 1)`.  Returns the leaf and the advanced stream. -/
def randomPath (p : Params) (rng : Nat → Nat) : Nat × (Nat → Nat) :=
  (rng 0 % (p.bucket_count / 2 + 1), fun n => rng (n + 1))

/-- Inner loop of `readPath`: copy every valid block of one bucket into the
stash via `stash.emplace(block.id, block.data)`. -/
def readBucket (bucket : List IDBlock) (st : List (Nat × Block)) :
    List (Nat × Block) :=
  bucket.foldl
    (fun st blk =>
      if blk.id ≠ invalid_block then stashEmplace blk.id blk.data st else st)
    st

/-- Body of the level loop of `readPath(pos)`: copy the valid blocks of the
bucket at level `l` of the path to `pos` into the stash. -/
def readPathStep (p : Params) (pos : Nat) (s : State) (l : Nat) : State :=
  { s with
    stash := readBucket (s.buckets.getD (getNodeOnPath p pos l) []) s.stash }

/-- Function `readPath(pos)`: read each bucket on the path to leaf `pos`
(levels `0 … HeightL`) into the stash, emitting one bucket-read event per
level. -/
def readPath (p : Params) (pos : Nat) (s : State) : State × List Event :=
  (List.range (p.heightL + 1)).foldl
    (fun acc l =>
      (readPathStep p pos acc.1 l, acc.2 ++ [Event.bread (getNodeOnPath p pos l)]))
    (s, [])

/-- Function `getIntersectingBlocks(leaf, height)`: ids of the stash blocks
whose currently-mapped path intersects the path to `leaf` at level `height`,
in stash iteration (increasing key) order. -/
def getIntersectingBlocks (p : Params) (s : State) (leaf height : Nat) :
    List Nat :=
  (s.stash.map Prod.fst).filter
    (fun block_id =>
      getNodeOnPath p (s.position_map.getD block_id 0) height ==
        getNodeOnPath p leaf height)

/-- First loop of the level body in `writePath`: for each selected id the next
slot takes the id and `stash[block.id]`, and the id is erased from the stash. -/
def takeToBucket (p : Params) :
    List Nat → List (Nat × Block) → List IDBlock × List (Nat × Block)
  | [], st => ([], st)
  | i :: rest, st =>
      let r := stashGetDefault p i st
      let res := takeToBucket p rest (stashErase i r.2)
      ({ id := i, data := r.1 } :: res.1, res.2)

/-- Body of the level loop in `writePath`: build the new bucket for level `l`
of the path to `pos` (selected blocks first, the remaining
`Z - |valid_blocks|` slots invalidated) and store it at its heap index. -/
def writeLevel (p : Params) (pos : Nat) (s : State) (l : Nat) : State :=
  let node := getNodeOnPath p pos l
  let valid_blocks := getIntersectingBlocks p s pos l
  let filled := takeToBucket p (valid_blocks.take p.bucketSizeZ) s.stash
  let bucket :=
    filled.1 ++ List.replicate (p.bucketSizeZ - valid_blocks.length) p.empty_slot
  { s with buckets := s.buckets.set node bucket, stash := filled.2 }

/-- Function `writePath(pos)`: rebuild the buckets on the path to leaf `pos`
from the stash, level `HeightL` down to `0`, emitting one bucket-write event
per level. -/
def writePath (p : Params) (pos : Nat) (s : State) : State × List Event :=
  ((List.range (p.heightL + 1)).reverse).foldl
    (fun acc l =>
      (writeLevel p pos acc.1 l, acc.2 ++ [Event.bwrite (getNodeOnPath p pos l)]))
    (s, [])

/-- Function `access(op, blk, b)`.  Throws `std::out_of_range` when
`blk ≥ block_count_N`, before touching any state.  Otherwise: look up the old
leaf, remap `position_map[blk]` to a fresh random leaf, read the old path into
the stash, perform the logical operation on the stash, and write the path
back.  Returns the in/out payload, the new state, and the emitted events.
`accessRun` is the body executed after the range check of `access` passes. -/
def accessRun (p : Params) (op : Op) (blk : Nat) (b : Block) (s : State) :
    Block × State × List Event :=
  let pos := s.position_map.getD blk 0
  let draw := randomPath p s.rng
  let s1 : State :=
    { s with position_map := s.position_map.set blk draw.1, rng := draw.2 }
  let r2 := readPath p pos s1
  let step : Block × State :=
    match op with
    | .Read =>
        let r := stashGetDefault p blk r2.1.stash
        (r.1, { r2.1 with stash := r.2 })
    | .Write => (b, { r2.1 with stash := stashAssign blk b r2.1.stash })
  let r4 := writePath p pos step.2
  (step.1, r4.1, Event.remap blk :: (r2.2 ++ r4.2))

/-- Function `access(op, blk, b)`: the out-of-range check
`blk >= block_count_N` (throwing `std::out_of_range` before touching any
state), followed by the access body `accessRun`. -/
def access (p : Params) (op : Op) (blk : Nat) (b : Block) (s : State) :
    Except OramError (Block × State × List Event) :=
  if blk ≥ p.block_count_N then .error .outOfRange
  else .ok (accessRun p op blk b s)

/-- Wrapper `read(blk)`: `access(Op::Read, blk, b)` returning the out payload.
The local `Block b` of the C++ wrapper is uninitialized; its initial value is
never used by the `Read` branch, and the model passes a zero block. -/
def read (p : Params) (blk : Nat) (s : State) :
    Except OramError (Block × State) :=
  (access p .Read blk p.zero_block s).map (fun r => (r.1, r.2.1))

/-- Wrapper `write(blk, b)`: `access(Op::Write, blk, b)`. -/
def write (p : Params) (blk : Nat) (b : Block) (s : State) :
    Except OramError State :=
  (access p .Write blk b s).map (fun r => r.2.1)

/-- Body of the constructor loop: `position_map[i] = randomPath()`. -/
def initStep (p : Params) (s : State) (i : Nat) : State :=
  let draw := randomPath p s.rng
  { s with position_map := s.position_map.set i draw.1, rng := draw.2 }

/-- Constructor `PathORAM()`: `bucket_count` default-constructed buckets, an
empty stash, and `position_map[i] = randomPath()` for
`i = 0 … block_count_N - 1`.  The stream `rng` models the draws of the
engine-owned `mt19937` seeded from `std::random_device`. -/
def init (p : Params) (rng : Nat → Nat) : State :=
  (List.range p.block_count_N).foldl (initStep p)
    { buckets :=
        List.replicate p.bucket_count (List.replicate p.bucketSizeZ p.empty_slot),
      position_map := List.replicate p.block_count_N 0,
      stash := [],
      rng := rng }

/-! ### Structural lemmas about the folds of the engine -/

theorem foldl_pair_split {α β γ : Type} (f1 : α → γ → α) (g : γ → β) :
    ∀ (ls : List γ) (s : α) (evs : List β),
      ls.foldl (fun acc l => (f1 acc.1 l, acc.2 ++ [g l])) (s, evs) =
        (ls.foldl f1 s, evs ++ ls.map g) := by
  intro ls
  induction ls with
  | nil => intro s evs; simp
  | cons l rest ih =>
      intro s evs
      simp only [List.foldl_cons, List.map_cons]
      rw [ih]
      simp

theorem foldl_proj_eq {σ γ δ : Type} (step : σ → γ → σ) (proj : σ → δ)
    (h : ∀ s l, proj (step s l) = proj s) :
    ∀ (ls : List γ) (s : σ), proj (ls.foldl step s) = proj s := by
  intro ls
  induction ls with
  | nil => intro s; rfl
  | cons l rest ih =>
      intro s
      rw [List.foldl_cons, ih, h]

theorem getD_set_self {α : Type} (l : List α) (i : Nat) (v d : α)
    (h : i < l.length) : (l.set i v).getD i d = v := by
  induction l generalizing i with
  | nil => simp at h
  | cons a rest ih =>
      cases i with
      | zero => simp [List.set]
      | succ n =>
          simp only [List.set, List.getD_cons_succ]
          exact ih n (by simpa using h)

theorem getD_set_ne {α : Type} (l : List α) (i j : Nat) (v d : α)
    (h : i ≠ j) : (l.set i v).getD j d = l.getD j d := by
  induction l generalizing i j with
  | nil => simp [List.set]
  | cons a rest ih =>
      cases i with
      | zero =>
          cases j with
          | zero => exact absurd rfl h
          | succ m => simp [List.set, List.getD_cons_succ]
      | succ n =>
          cases j with
          | zero => simp [List.set, List.getD_cons_zero]
          | succ m =>
              simp only [List.set, List.getD_cons_succ]
              exact ih n m (by omega)

/-- State part and event part of `readPath`, separated. -/
def readPathS (p : Params) (pos : Nat) (s : State) : State :=
  (List.range (p.heightL + 1)).foldl (readPathStep p pos) s

theorem readPath_eq (p : Params) (pos : Nat) (s : State) :
    readPath p pos s =
      (readPathS p pos s,
        (List.range (p.heightL + 1)).map
          (fun l => Event.bread (getNodeOnPath p pos l))) := by
  unfold readPath readPathS
  rw [foldl_pair_split]
  simp

/-- State part and event part of `writePath`, separated. -/
def writePathS (p : Params) (pos : Nat) (s : State) : State :=
  ((List.range (p.heightL + 1)).reverse).foldl (writeLevel p pos) s

theorem writePath_eq (p : Params) (pos : Nat) (s : State) :
    writePath p pos s =
      (writePathS p pos s,
        ((List.range (p.heightL + 1)).reverse).map
          (fun l => Event.bwrite (getNodeOnPath p pos l))) := by
  unfold writePath writePathS
  rw [foldl_pair_split]
  simp

theorem readPathS_buckets (p : Params) (pos : Nat) (s : State) :
    (readPathS p pos s).buckets = s.buckets :=
  foldl_proj_eq (readPathStep p pos) State.buckets (fun _ _ => rfl) _ s

theorem readPathS_position_map (p : Params) (pos : Nat) (s : State) :
    (readPathS p pos s).position_map = s.position_map :=
  foldl_proj_eq (readPathStep p pos) State.position_map (fun _ _ => rfl) _ s

theorem readPathS_rng (p : Params) (pos : Nat) (s : State) :
    (readPathS p pos s).rng = s.rng :=
  foldl_proj_eq (readPathStep p pos) State.rng (fun _ _ => rfl) _ s

theorem writePathS_position_map (p : Params) (pos : Nat) (s : State) :
    (writePathS p pos s).position_map = s.position_map :=
  foldl_proj_eq (writeLevel p pos) State.position_map (fun _ _ => rfl) _ s

theorem writePathS_rng (p : Params) (pos : Nat) (s : State) :
    (writePathS p pos s).rng = s.rng :=
  foldl_proj_eq (writeLevel p pos) State.rng (fun _ _ => rfl) _ s

/-- Characterization of the constructor loop. -/
theorem initStep_fold_spec (p : Params) :
    ∀ (n : Nat) (s : State),
      ((List.range n).foldl (initStep p) s).buckets = s.buckets ∧
      ((List.range n).foldl (initStep p) s).stash = s.stash ∧
      ((List.range n).foldl (initStep p) s).position_map.length =
        s.position_map.length ∧
      ((List.range n).foldl (initStep p) s).rng = (fun k => s.rng (n + k)) ∧
      (∀ i, i < n → i < s.position_map.length →
        ((List.range n).foldl (initStep p) s).position_map.getD i 0 =
          s.rng i % (p.bucket_count / 2 + 1)) := by
  intro n
  induction n with
  | zero =>
      intro s
      refine ⟨by simp, by simp, by simp, by funext k; simp, ?_⟩
      intro i hi
      omega
  | succ n ih =>
      intro s
      have hfold : (List.range (n + 1)).foldl (initStep p) s =
          initStep p ((List.range n).foldl (initStep p) s) n := by
        rw [List.range_succ, List.foldl_append, List.foldl_cons, List.foldl_nil]
      obtain ⟨hb, hst, hlen, hrng, hpm⟩ := ih s
      rw [hfold]
      refine ⟨hb, hst, ?_, ?_, ?_⟩
      · simp only [initStep, randomPath, List.length_set]
        exact hlen
      · funext k
        simp only [initStep, randomPath, hrng]
        congr 1
        omega
      · intro i hi hilen
        simp only [initStep, randomPath]
        rcases Nat.lt_or_ge i n with hin | hin
        · rw [getD_set_ne _ _ _ _ _ (by omega)]
          exact hpm i hin hilen
        · have hieq : i = n := by omega
          subst hieq
          rw [getD_set_self _ _ _ _ (by rw [hlen]; exact hilen), hrng]
          simp

/-- C6: a public call with `blk ≥ block_count_N` fails with `OutOfRange`
before any state is touched (the model returns the error without producing a
successor state, matching the C++ `throw` placed before all mutation), and a
call with `blk < block_count_N` succeeds. -/
theorem c6_out_of_range_boundary (p : Params) (op : Op) (blk : Nat) (b : Block)
    (s : State) :
    (p.block_count_N ≤ blk → access p op blk b s = .error .outOfRange) ∧
    (blk < p.block_count_N →
      access p op blk b s = .ok (accessRun p op blk b s)) := by
  constructor
  · intro h
    simp only [access, ge_iff_le, if_pos h]
  · intro h
    simp only [access, ge_iff_le, if_neg (by omega : ¬p.block_count_N ≤ blk)]

/-- Witness for `c6_out_of_range_boundary` with `HeightL = 1`, `Z = 1`
(`N = 3`): `access` at `blk = 3` fails with `OutOfRange`, and at
`blk = N - 1 = 2` succeeds. -/
theorem c6_out_of_range_boundary_witness :
    access (Params.mk 1 1 1) .Read 3 [0] (init (Params.mk 1 1 1) (fun _ => 0)) =
        .error .outOfRange ∧
    access (Params.mk 1 1 1) .Read 2 [0] (init (Params.mk 1 1 1) (fun _ => 0)) =
      .ok (accessRun (Params.mk 1 1 1) .Read 2 [0]
            (init (Params.mk 1 1 1) (fun _ => 0))) :=
  ⟨(c6_out_of_range_boundary (Params.mk 1 1 1) .Read 3 [0]
      (init (Params.mk 1 1 1) (fun _ => 0))).1 (by decide),
   (c6_out_of_range_boundary (Params.mk 1 1 1) .Read 2 [0]
      (init (Params.mk 1 1 1) (fun _ => 0))).2 (by decide)⟩

/-- C7: the leaf distribution `uniform_int_distribution{0, bucket_count/2}`
has inclusive upper bound `bucket_count/2 = leaf_count - 1`, so `randomPath`
returns exactly the leaves `0 … 2^HeightL - 1`: never a value out of range,
every leaf attainable, each leaf hit by exactly `k` of the `k * leaf_count`
equiprobable raw draws below `k * leaf_count`; and every constructor-time
position-map entry `i` is the fresh draw at stream offset `i`. -/
theorem c7_leaf_dist_uniform (p : Params) :
    p.bucket_count / 2 + 1 = p.leaf_count ∧
    (∀ rng : Nat → Nat, (randomPath p rng).1 < p.leaf_count) ∧
    (∀ l, l < p.leaf_count → ∃ r : Nat, (randomPath p (fun _ => r)).1 = l) ∧
    (∀ l k, l < p.leaf_count →
      ((Finset.range (k * p.leaf_count)).filter
          (fun r => (randomPath p (fun _ => r)).1 = l)).card = k) ∧
    (∀ (rng : Nat → Nat) (i : Nat), i < p.block_count_N →
      (init p rng).position_map.getD i 0 =
        (randomPath p (fun n => rng (i + n))).1) := by
  have hC : p.bucket_count / 2 + 1 = p.leaf_count := by
    have h1 := bucket_count_div_two p
    have h2 := leaf_count_pos p
    omega
  have hCpos : 0 < p.bucket_count / 2 + 1 := by omega
  refine ⟨hC, ?_, ?_, ?_, ?_⟩
  · intro rng
    simp only [randomPath]
    rw [← hC]
    exact Nat.mod_lt _ hCpos
  · intro l hl
    refine ⟨l, ?_⟩
    simp only [randomPath]
    rw [hC]
    exact Nat.mod_eq_of_lt hl
  · intro l k hl
    have hCpos' : 0 < p.leaf_count := leaf_count_pos p
    have key : ((Finset.range (k * p.leaf_count)).filter
        (fun r => (randomPath p (fun _ => r)).1 = l)).card =
        (Finset.range k).card := by
      refine Finset.card_bij' (fun r _ => r / p.leaf_count)
        (fun q _ => q * p.leaf_count + l) ?_ ?_ ?_ ?_
      · intro r hr
        simp only [Finset.mem_filter, Finset.mem_range] at hr
        simp only [Finset.mem_range]
        exact Nat.div_lt_of_lt_mul (Nat.mul_comm k p.leaf_count ▸ hr.1)
      · intro q hq
        simp only [Finset.mem_range] at hq
        simp only [Finset.mem_filter, Finset.mem_range, randomPath, hC]
        constructor
        · calc q * p.leaf_count + l < q * p.leaf_count + p.leaf_count := by omega
            _ = (q + 1) * p.leaf_count := by ring
            _ ≤ k * p.leaf_count := Nat.mul_le_mul_right _ (by omega)
        · rw [Nat.mul_comm q p.leaf_count, Nat.mul_add_mod]
          exact Nat.mod_eq_of_lt hl
      · intro r hr
        simp only [Finset.mem_filter, Finset.mem_range, randomPath, hC] at hr
        show r / p.leaf_count * p.leaf_count + l = r
        rw [← hr.2]
        exact Nat.div_add_mod' r p.leaf_count
      · intro q hq
        show (q * p.leaf_count + l) / p.leaf_count = q
        rw [Nat.mul_comm q p.leaf_count, Nat.mul_add_div hCpos',
          Nat.div_eq_of_lt hl]
        omega
    rw [key, Finset.card_range]
  · intro rng i hi
    have hspec := (initStep_fold_spec p p.block_count_N
      { buckets :=
          List.replicate p.bucket_count (List.replicate p.bucketSizeZ p.empty_slot),
        position_map := List.replicate p.block_count_N 0,
        stash := [],
        rng := rng }).2.2.2.2
    simp only [List.length_replicate] at hspec
    have := hspec i hi hi
    simp only [init, this, randomPath]
    simp

/-- Witness for `c7_leaf_dist_uniform` at `HeightL = 1` (`leaf_count = 2`):
leaf `1` is hit by exactly `3` raw draws below `3 * 2`. -/
theorem c7_leaf_dist_uniform_witness :
    (1 : Nat) < (Params.mk 1 1 1).leaf_count ∧
    ((Finset.range (3 * (Params.mk 1 1 1).leaf_count)).filter
        (fun r => (randomPath (Params.mk 1 1 1) (fun _ => r)).1 = 1)).card = 3 :=
  ⟨by decide,
    (c7_leaf_dist_uniform (Params.mk 1 1 1)).2.2.2.1 1 3 (by decide)⟩

/-! ### Characterization of one access (frame and effect order) -/

theorem accessRun_events (p : Params) (op : Op) (blk : Nat) (b : Block)
    (s : State) :
    (accessRun p op blk b s).2.2 =
      Event.remap blk ::
        ((List.range (p.heightL + 1)).map
            (fun l => Event.bread (getNodeOnPath p (s.position_map.getD blk 0) l)) ++
          ((List.range (p.heightL + 1)).reverse).map
            (fun l => Event.bwrite (getNodeOnPath p (s.position_map.getD blk 0) l))) := by
  cases op <;> simp only [accessRun, readPath_eq, writePath_eq]

theorem accessRun_position_map (p : Params) (op : Op) (blk : Nat) (b : Block)
    (s : State) :
    (accessRun p op blk b s).2.1.position_map =
      s.position_map.set blk (randomPath p s.rng).1 := by
  cases op <;>
    simp only [accessRun, readPath_eq, writePath_eq, writePathS_position_map,
      readPathS_position_map]

theorem accessRun_rng (p : Params) (op : Op) (blk : Nat) (b : Block)
    (s : State) :
    (accessRun p op blk b s).2.1.rng = (randomPath p s.rng).2 := by
  cases op <;>
    simp only [accessRun, readPath_eq, writePath_eq, writePathS_rng,
      readPathS_rng]

theorem writeLevel_buckets_off (p : Params) (pos j : Nat) {s : State} {l : Nat}
    (hj : getNodeOnPath p pos l ≠ j) :
    (writeLevel p pos s l).buckets.getD j [] = s.buckets.getD j [] := by
  simp only [writeLevel]
  exact getD_set_ne _ _ _ _ _ hj

theorem foldl_writeLevel_buckets_off (p : Params) (pos j : Nat) :
    ∀ (ls : List Nat) (s : State), (∀ l ∈ ls, getNodeOnPath p pos l ≠ j) →
      (ls.foldl (writeLevel p pos) s).buckets.getD j [] = s.buckets.getD j [] := by
  intro ls
  induction ls with
  | nil => intro s _; rfl
  | cons l rest ih =>
      intro s hj
      rw [List.foldl_cons, ih _ (fun x hx => hj x (List.mem_cons_of_mem _ hx)),
        writeLevel_buckets_off p pos j (hj l (List.mem_cons_self _ _))]

theorem accessRun_buckets_off (p : Params) (op : Op) (blk : Nat) (b : Block)
    (s : State) (j : Nat)
    (hj : ∀ l, l ≤ p.heightL → getNodeOnPath p (s.position_map.getD blk 0) l ≠ j) :
    (accessRun p op blk b s).2.1.buckets.getD j [] = s.buckets.getD j [] := by
  have hj' : ∀ l ∈ (List.range (p.heightL + 1)).reverse,
      getNodeOnPath p (s.position_map.getD blk 0) l ≠ j := by
    intro l hl
    rw [List.mem_reverse, List.mem_range] at hl
    exact hj l (by omega)
  cases op <;>
  · simp only [accessRun, readPath_eq, writePath_eq, writePathS]
    rw [foldl_writeLevel_buckets_off p _ j _ _ hj']
    simp only [readPathS_buckets]

/-- C9: each successful `access(_, blk, _)` refreshes `position_map[blk]`
exactly once — before any bucket is read (the remap event precedes all bucket
events) — leaves every other position-map entry unchanged, and touches exactly
the `HeightL + 1` buckets `getNodeOnPath(old_leaf, 0 … HeightL)` of the
pre-refresh leaf `old_leaf = position_map[blk]`, read root-to-leaf and then
rewritten leaf-to-root; every off-path bucket is unchanged. -/
theorem c9_access_frame_and_order (p : Params) (op : Op) (blk : Nat)
    (b : Block) (s : State) (h : blk < p.block_count_N) :
    ∃ out s',
      access p op blk b s =
        .ok (out, s',
          Event.remap blk ::
            ((List.range (p.heightL + 1)).map
                (fun l => Event.bread (getNodeOnPath p (s.position_map.getD blk 0) l)) ++
              ((List.range (p.heightL + 1)).reverse).map
                (fun l => Event.bwrite (getNodeOnPath p (s.position_map.getD blk 0) l)))) ∧
      s'.position_map = s.position_map.set blk (randomPath p s.rng).1 ∧
      (∀ i, i ≠ blk → s'.position_map.getD i 0 = s.position_map.getD i 0) ∧
      (∀ j, (∀ l, l ≤ p.heightL → getNodeOnPath p (s.position_map.getD blk 0) l ≠ j) →
        s'.buckets.getD j [] = s.buckets.getD j []) := by
  refine ⟨(accessRun p op blk b s).1, (accessRun p op blk b s).2.1, ?_, ?_, ?_, ?_⟩
  · rw [(c6_out_of_range_boundary p op blk b s).2 h, ← accessRun_events p op blk b s]
  · exact accessRun_position_map p op blk b s
  · intro i hi
    rw [accessRun_position_map p op blk b s, getD_set_ne _ _ _ _ _ (fun hh => hi hh.symm)]
  · intro j hj
    exact accessRun_buckets_off p op blk b s j hj

/-- Witness for `c9_access_frame_and_order` at `HeightL = 1`, `Z = 1`,
`blk = 1 < 3 = N`. -/
theorem c9_access_frame_and_order_witness :
    ∃ out s',
      access (Params.mk 1 1 1) .Write 1 [5] (init (Params.mk 1 1 1) (fun n => n)) =
        .ok (out, s',
          Event.remap 1 ::
            ((List.range ((Params.mk 1 1 1).heightL + 1)).map
                (fun l => Event.bread (getNodeOnPath (Params.mk 1 1 1)
                  ((init (Params.mk 1 1 1) (fun n => n)).position_map.getD 1 0) l)) ++
              ((List.range ((Params.mk 1 1 1).heightL + 1)).reverse).map
                (fun l => Event.bwrite (getNodeOnPath (Params.mk 1 1 1)
                  ((init (Params.mk 1 1 1) (fun n => n)).position_map.getD 1 0) l)))) ∧
      s'.position_map =
        (init (Params.mk 1 1 1) (fun n => n)).position_map.set 1
          (randomPath (Params.mk 1 1 1) (init (Params.mk 1 1 1) (fun n => n)).rng).1 ∧
      (∀ i, i ≠ 1 → s'.position_map.getD i 0 =
        (init (Params.mk 1 1 1) (fun n => n)).position_map.getD i 0) ∧
      (∀ j, (∀ l, l ≤ (Params.mk 1 1 1).heightL →
          getNodeOnPath (Params.mk 1 1 1)
            ((init (Params.mk 1 1 1) (fun n => n)).position_map.getD 1 0) l ≠ j) →
        s'.buckets.getD j [] =
          (init (Params.mk 1 1 1) (fun n => n)).buckets.getD j []) :=
  c9_access_frame_and_order (Params.mk 1 1 1) .Write 1 [5]
    (init (Params.mk 1 1 1) (fun n => n)) (by decide)

/-! ### Occupancy predicates and the engine invariant -/

/-- Slot at bucket index `j`, slot index `z` (out-of-range reads give an
invalid slot, never used under the invariant bounds). -/
def slotAt (s : State) (j z : Nat) : IDBlock :=
  (s.buckets.getD j []).getD z { id := invalid_block, data := [] }

/-- Block `k` with payload `v` sits in some tree slot outside the excluded
bucket indices. -/
def TreeVal (s : State) (excl : List Nat) (k : Nat) (v : Block) : Prop :=
  ∃ j z, j < s.buckets.length ∧ z < (s.buckets.getD j []).length ∧
    j ∉ excl ∧ (slotAt s j z).id = k ∧ (slotAt s j z).data = v

/-- Block `k` has payload `v`: in the stash, or (when not stashed) in a tree
slot outside the excluded bucket indices. -/
def HasValE (s : State) (excl : List Nat) (k : Nat) (v : Block) : Prop :=
  stashFind? k s.stash = some v ∨
    (stashFind? k s.stash = none ∧ TreeVal s excl k v)

/-- Block `k` is nowhere: not in the stash and in no tree slot outside the
excluded bucket indices. -/
def AbsentE (s : State) (excl : List Nat) (k : Nat) : Prop :=
  stashFind? k s.stash = none ∧
    ∀ j z, j < s.buckets.length → z < (s.buckets.getD j []).length →
      j ∉ excl → (slotAt s j z).id ≠ k

/-- Block `k` has payload `v` somewhere in stash or tree. -/
def HasVal (s : State) (k : Nat) (v : Block) : Prop := HasValE s [] k v

/-- Block `k` is stored nowhere in the engine. -/
def Absent (s : State) (k : Nat) : Prop := AbsentE s [] k

/-- Bucket heap indices of the levels `ls` of the path to leaf `pos`. -/
def staleNodes (p : Params) (pos : Nat) (ls : List Nat) : List Nat :=
  ls.map (getNodeOnPath p pos)

/-- Engine invariant, relative to a set `ls` of path levels whose buckets are
still awaiting their rewrite by `writePath(pos)` ("stale").  With `ls = []`
this is the invariant of a completed state.  The clean (non-stale) region
satisfies: its ids are not in the stash, every id occupies at most one clean
slot, and every clean slot lies on the path of its id's current position-map
entry. -/
structure WInv (p : Params) (pos : Nat) (ls : List Nat) (s : State) : Prop where
  buckets_len : s.buckets.length = p.bucket_count
  bucket_len : ∀ j, j < s.buckets.length →
    (s.buckets.getD j []).length = p.bucketSizeZ
  pm_len : s.position_map.length = p.block_count_N
  pm_range : ∀ i, i < p.block_count_N →
    s.position_map.getD i 0 < p.leaf_count
  sorted : stashSorted s.stash
  stash_keys : ∀ e ∈ s.stash, e.1 < p.block_count_N
  tree_ids : ∀ j z, j < s.buckets.length → z < (s.buckets.getD j []).length →
    (slotAt s j z).id ≠ invalid_block → (slotAt s j z).id < p.block_count_N
  clean_not_in_stash : ∀ j z, j < s.buckets.length →
    z < (s.buckets.getD j []).length → j ∉ staleNodes p pos ls →
    (slotAt s j z).id ≠ invalid_block →
    stashFind? (slotAt s j z).id s.stash = none
  clean_unique : ∀ j z j' z', j < s.buckets.length →
    z < (s.buckets.getD j []).length → j' < s.buckets.length →
    z' < (s.buckets.getD j' []).length →
    j ∉ staleNodes p pos ls → j' ∉ staleNodes p pos ls →
    (slotAt s j z).id ≠ invalid_block →
    (slotAt s j z).id = (slotAt s j' z').id → j = j' ∧ z = z'
  clean_bpi : ∀ j z, j < s.buckets.length → z < (s.buckets.getD j []).length →
    j ∉ staleNodes p pos ls → (slotAt s j z).id ≠ invalid_block →
    ∃ h, h ≤ p.heightL ∧
      getNodeOnPath p (s.position_map.getD (slotAt s j z).id 0) h = j

/-- Invariant of a completed state: no bucket awaits a rewrite. -/
def WF (p : Params) (s : State) : Prop := WInv p 0 [] s

/-! ### Lemmas about `readBucket` -/

theorem readBucket_sorted {st : List (Nat × Block)} (bucket : List IDBlock)
    (hs : stashSorted st) : stashSorted (readBucket bucket st) := by
  induction bucket generalizing st with
  | nil => exact hs
  | cons slot rest ih =>
      rw [readBucket, List.foldl_cons]
      apply ih
      by_cases h : slot.id ≠ invalid_block
      · simp only [if_pos h]
        exact stashSorted_emplace hs
      · simp only [if_neg h]
        exact hs

theorem readBucket_mem {st : List (Nat × Block)} (bucket : List IDBlock) :
    ∀ x ∈ readBucket bucket st, x ∈ st ∨
      ∃ slot ∈ bucket, slot.id ≠ invalid_block ∧ x.1 = slot.id ∧
        x.2 = slot.data := by
  induction bucket generalizing st with
  | nil => intro x hx; exact Or.inl hx
  | cons slot rest ih =>
      intro x hx
      rw [readBucket, List.foldl_cons] at hx
      rcases ih x hx with hmem | ⟨slot', hslot', hrest⟩
      · by_cases h : slot.id ≠ invalid_block
        · simp only [if_pos h] at hmem
          rcases stashEmplace_mem x hmem with hx' | hx'
          · exact Or.inr ⟨slot, List.mem_cons_self _ _, h, by simp [hx']⟩
          · exact Or.inl hx'
        · simp only [if_neg h] at hmem
          exact Or.inl hmem
      · exact Or.inr ⟨slot', List.mem_cons_of_mem _ hslot', hrest⟩

theorem readBucket_find_old {st : List (Nat × Block)} {k : Nat} {v : Block}
    (bucket : List IDBlock) (hs : stashSorted st)
    (h : stashFind? k st = some v) :
    stashFind? k (readBucket bucket st) = some v := by
  induction bucket generalizing st with
  | nil => exact h
  | cons slot rest ih =>
      rw [readBucket, List.foldl_cons]
      by_cases hv : slot.id ≠ invalid_block
      · simp only [if_pos hv]
        rcases hfind : stashFind? slot.id st with _ | w
        · refine ih (stashSorted_emplace hs) ?_
          rw [stashFind?_emplace_absent hfind k]
          have : ¬k = slot.id := fun hh => by
            rw [hh, hfind] at h; exact Option.noConfusion h
          rw [if_neg this]
          exact h
        · rw [stashFind?_emplace_present hs hfind]
          exact ih hs h
      · simp only [if_neg hv]
        exact ih hs h

theorem readBucket_find_none {st : List (Nat × Block)} {k : Nat}
    (bucket : List IDBlock) (hs : stashSorted st)
    (h : stashFind? k st = none) (hnone : ∀ slot ∈ bucket, slot.id ≠ k) :
    stashFind? k (readBucket bucket st) = none := by
  induction bucket generalizing st with
  | nil => exact h
  | cons slot rest ih =>
      rw [readBucket, List.foldl_cons]
      have hneq : slot.id ≠ k := hnone slot (List.mem_cons_self _ _)
      have hrest : ∀ x ∈ rest, x.id ≠ k :=
        fun x hx => hnone x (List.mem_cons_of_mem _ hx)
      by_cases hv : slot.id ≠ invalid_block
      · simp only [if_pos hv]
        rcases hfind : stashFind? slot.id st with _ | w
        · refine ih (stashSorted_emplace hs) ?_ hrest
          rw [stashFind?_emplace_absent hfind k,
            if_neg (fun hh : k = slot.id => hneq hh.symm)]
          exact h
        · rw [stashFind?_emplace_present hs hfind]
          exact ih hs h hrest
      · simp only [if_neg hv]
        exact ih hs h hrest

theorem readBucket_find_new {st : List (Nat × Block)} {k : Nat} {v : Block}
    (bucket : List IDBlock) (hs : stashSorted st)
    (habs : stashFind? k st = none) (hk : k ≠ invalid_block)
    (hex : ∃ slot ∈ bucket, slot.id = k ∧ slot.data = v)
    (huni : ∀ slot ∈ bucket, slot.id = k → slot.data = v) :
    stashFind? k (readBucket bucket st) = some v := by
  induction bucket generalizing st with
  | nil => rcases hex with ⟨slot, hslot, _⟩; simp at hslot
  | cons slot rest ih =>
      rw [readBucket, List.foldl_cons]
      by_cases hsk : slot.id = k
      · have hv : slot.id ≠ invalid_block := by rw [hsk]; exact hk
        simp only [if_pos hv]
        have hdata : slot.data = v := huni slot (List.mem_cons_self _ _) hsk
        rcases hfind : stashFind? slot.id st with _ | w
        · have hnew : stashFind? k (stashEmplace slot.id slot.data st) =
              some v := by
            rw [stashFind?_emplace_absent hfind k, if_pos hsk.symm, hdata]
          exact readBucket_find_old rest (stashSorted_emplace hs) hnew
        · rw [hsk, habs] at hfind
          exact Option.noConfusion hfind
      · have hex' : ∃ slot' ∈ rest, slot'.id = k ∧ slot'.data = v := by
          rcases hex with ⟨slot', hslot', hp⟩
          rcases List.mem_cons.mp hslot' with he | he
          · exact absurd (he ▸ hp.1) hsk
          · exact ⟨slot', he, hp⟩
        have huni' : ∀ slot' ∈ rest, slot'.id = k → slot'.data = v :=
          fun x hx => huni x (List.mem_cons_of_mem _ hx)
        by_cases hv : slot.id ≠ invalid_block
        · simp only [if_pos hv]
          rcases hfind : stashFind? slot.id st with _ | w
          · refine ih (stashSorted_emplace hs) ?_ hex' huni'
            rw [stashFind?_emplace_absent hfind k,
              if_neg (fun hh : k = slot.id => hsk hh.symm)]
            exact habs
          · rw [stashFind?_emplace_present hs hfind]
            exact ih hs habs hex' huni'
        · simp only [if_neg hv]
          exact ih hs habs hex' huni'

theorem readBucket_find_src {st : List (Nat × Block)} {k : Nat} {v : Block}
    (bucket : List IDBlock) (hs : stashSorted st)
    (habs : stashFind? k st = none)
    (h : stashFind? k (readBucket bucket st) = some v) :
    ∃ slot ∈ bucket, slot.id = k ∧ slot.data = v ∧ k ≠ invalid_block := by
  induction bucket generalizing st with
  | nil => rw [readBucket, List.foldl_nil, habs] at h; exact Option.noConfusion h
  | cons slot rest ih =>
      rw [readBucket, List.foldl_cons] at h
      by_cases hv : slot.id ≠ invalid_block
      · simp only [if_pos hv] at h
        rcases hfind : stashFind? slot.id st with _ | w
        · by_cases hsk : slot.id = k
          · have hnew : stashFind? k (stashEmplace slot.id slot.data st) =
                some slot.data := by
              rw [stashFind?_emplace_absent hfind k, if_pos hsk.symm]
            have hgot := readBucket_find_old rest (stashSorted_emplace hs) hnew
            simp only [readBucket] at hgot
            rw [hgot] at h
            exact ⟨slot, List.mem_cons_self _ _, hsk, Option.some.inj h, hsk ▸ hv⟩
          · have habs' : stashFind? k (stashEmplace slot.id slot.data st) =
                none := by
              rw [stashFind?_emplace_absent hfind k,
                if_neg (fun hh : k = slot.id => hsk hh.symm)]
              exact habs
            rcases ih (stashSorted_emplace hs) habs' h with ⟨x, hx, hp⟩
            exact ⟨x, List.mem_cons_of_mem _ hx, hp⟩
        · rw [stashFind?_emplace_present hs hfind] at h
          rcases ih hs habs h with ⟨x, hx, hp⟩
          exact ⟨x, List.mem_cons_of_mem _ hx, hp⟩
      · simp only [if_neg hv] at h
        rcases ih hs habs h with ⟨x, hx, hp⟩
        exact ⟨x, List.mem_cons_of_mem _ hx, hp⟩

/-! ### Lemmas about the level fold of `readPath` -/

theorem readFold_buckets (p : Params) (pos : Nat) (ls : List Nat) (s : State) :
    (ls.foldl (readPathStep p pos) s).buckets = s.buckets :=
  foldl_proj_eq (readPathStep p pos) State.buckets (fun _ _ => rfl) ls s

theorem readFold_position_map (p : Params) (pos : Nat) (ls : List Nat)
    (s : State) :
    (ls.foldl (readPathStep p pos) s).position_map = s.position_map :=
  foldl_proj_eq (readPathStep p pos) State.position_map (fun _ _ => rfl) ls s

theorem readFold_sorted (p : Params) (pos : Nat) :
    ∀ (ls : List Nat) (s : State), stashSorted s.stash →
      stashSorted (ls.foldl (readPathStep p pos) s).stash := by
  intro ls
  induction ls with
  | nil => intro s hs; exact hs
  | cons l rest ih =>
      intro s hs
      rw [List.foldl_cons]
      exact ih _ (readBucket_sorted _ hs)

theorem readFold_find_old (p : Params) (pos : Nat) {k : Nat} {v : Block} :
    ∀ (ls : List Nat) (s : State), stashSorted s.stash →
      stashFind? k s.stash = some v →
      stashFind? k (ls.foldl (readPathStep p pos) s).stash = some v := by
  intro ls
  induction ls with
  | nil => intro s _ h; exact h
  | cons l rest ih =>
      intro s hs h
      rw [List.foldl_cons]
      exact ih _ (readBucket_sorted _ hs) (readBucket_find_old _ hs h)

theorem readFold_find_none (p : Params) (pos : Nat) {k : Nat} :
    ∀ (ls : List Nat) (s : State), stashSorted s.stash →
      stashFind? k s.stash = none →
      (∀ l ∈ ls, ∀ slot ∈ s.buckets.getD (getNodeOnPath p pos l) [],
        slot.id ≠ k) →
      stashFind? k (ls.foldl (readPathStep p pos) s).stash = none := by
  intro ls
  induction ls with
  | nil => intro s _ h _; exact h
  | cons l rest ih =>
      intro s hs h hno
      rw [List.foldl_cons]
      exact ih _ (readBucket_sorted _ hs)
        (readBucket_find_none _ hs h (hno l (List.mem_cons_self _ _)))
        (fun x hx => hno x (List.mem_cons_of_mem _ hx))

theorem readFold_find_new (p : Params) (pos : Nat) {k : Nat} {v : Block} :
    ∀ (ls : List Nat) (s : State), stashSorted s.stash →
      stashFind? k s.stash = none → k ≠ invalid_block →
      (∃ l ∈ ls, ∃ slot ∈ s.buckets.getD (getNodeOnPath p pos l) [],
        slot.id = k ∧ slot.data = v) →
      (∀ l ∈ ls, ∀ slot ∈ s.buckets.getD (getNodeOnPath p pos l) [],
        slot.id = k → slot.data = v) →
      stashFind? k (ls.foldl (readPathStep p pos) s).stash = some v := by
  intro ls
  induction ls with
  | nil =>
      intro s _ _ _ hex _
      rcases hex with ⟨l, hl, _⟩
      simp at hl
  | cons l rest ih =>
      intro s hs habs hk hex huni
      rw [List.foldl_cons]
      by_cases hcase : ∃ slot ∈ s.buckets.getD (getNodeOnPath p pos l) [],
          slot.id = k ∧ slot.data = v
      · have hmid := readBucket_find_new
          (s.buckets.getD (getNodeOnPath p pos l) []) hs habs hk hcase
          (huni l (List.mem_cons_self _ _))
        exact readFold_find_old p pos rest _ (readBucket_sorted _ hs) hmid
      · have hno : ∀ slot ∈ s.buckets.getD (getNodeOnPath p pos l) [],
            slot.id ≠ k := by
          intro slot hslot hid
          exact hcase ⟨slot, hslot, hid,
            huni l (List.mem_cons_self _ _) slot hslot hid⟩
        have hmid := readBucket_find_none
          (s.buckets.getD (getNodeOnPath p pos l) []) hs habs hno
        refine ih _ (readBucket_sorted _ hs) hmid hk ?_
          (fun x hx => huni x (List.mem_cons_of_mem _ hx))
        rcases hex with ⟨l', hl', hsl⟩
        rcases List.mem_cons.mp hl' with he | he
        · exact absurd (he ▸ hsl) hcase
        · exact ⟨l', he, hsl⟩

theorem readFold_find_src (p : Params) (pos : Nat) {k : Nat} {v : Block} :
    ∀ (ls : List Nat) (s : State), stashSorted s.stash →
      stashFind? k s.stash = none →
      stashFind? k (ls.foldl (readPathStep p pos) s).stash = some v →
      ∃ l ∈ ls, ∃ slot ∈ s.buckets.getD (getNodeOnPath p pos l) [],
        slot.id = k ∧ slot.data = v ∧ k ≠ invalid_block := by
  intro ls
  induction ls with
  | nil =>
      intro s _ habs h
      rw [List.foldl_nil, habs] at h
      exact Option.noConfusion h
  | cons l rest ih =>
      intro s hs habs h
      rw [List.foldl_cons] at h
      rcases hmid : stashFind? k (readPathStep p pos s l).stash with _ | w
      · rcases ih _ (readBucket_sorted _ hs) hmid h with ⟨l', hl', hrest⟩
        exact ⟨l', List.mem_cons_of_mem _ hl', hrest⟩
      · have hsrc := readBucket_find_src
          (s.buckets.getD (getNodeOnPath p pos l) []) hs habs hmid
        have hpers := readFold_find_old p pos rest _
          (readBucket_sorted _ hs) hmid
        rw [h] at hpers
        rcases hsrc with ⟨slot, hslot, h1, h2, h3⟩
        exact ⟨l, List.mem_cons_self _ _, slot, hslot, h1,
          by rw [h2]; exact (Option.some.inj hpers).symm, h3⟩

theorem readFold_mem (p : Params) (pos : Nat) :
    ∀ (ls : List Nat) (s : State), ∀ x ∈ (ls.foldl (readPathStep p pos) s).stash,
      x ∈ s.stash ∨ ∃ l ∈ ls,
        ∃ slot ∈ s.buckets.getD (getNodeOnPath p pos l) [],
          slot.id ≠ invalid_block ∧ x.1 = slot.id ∧ x.2 = slot.data := by
  intro ls
  induction ls with
  | nil => intro s x hx; exact Or.inl hx
  | cons l rest ih =>
      intro s x hx
      rw [List.foldl_cons] at hx
      rcases ih _ x hx with hmem | ⟨l', hl', hrest⟩
      · rcases readBucket_mem _ x hmem with hmem' | ⟨slot, hslot, hp⟩
        · exact Or.inl hmem'
        · exact Or.inr ⟨l, List.mem_cons_self _ _, slot, hslot, hp⟩
      · exact Or.inr ⟨l', List.mem_cons_of_mem _ hl', hrest⟩

/-! ### Lemmas about `getIntersectingBlocks` and `takeToBucket` -/

theorem getD_append_lt {α : Type} :
    ∀ (l1 l2 : List α) (z : Nat) (d : α), z < l1.length →
      (l1 ++ l2).getD z d = l1.getD z d := by
  intro l1
  induction l1 with
  | nil => intro l2 z d h; simp at h
  | cons a rest ih =>
      intro l2 z d h
      cases z with
      | zero => simp
      | succ n =>
          simp only [List.cons_append, List.getD_cons_succ]
          exact ih l2 n d (by simpa using h)

theorem getD_append_ge {α : Type} :
    ∀ (l1 l2 : List α) (z : Nat) (d : α), l1.length ≤ z →
      (l1 ++ l2).getD z d = l2.getD (z - l1.length) d := by
  intro l1
  induction l1 with
  | nil => intro l2 z d _; simp
  | cons a rest ih =>
      intro l2 z d h
      cases z with
      | zero => simp at h
      | succ n =>
          simp only [List.cons_append, List.getD_cons_succ, List.length_cons]
          rw [ih l2 n d (by simpa using h)]
          congr 1
          omega

theorem getD_replicate {α : Type} :
    ∀ (n : Nat) (a : α) (z : Nat) (d : α), z < n →
      (List.replicate n a).getD z d = a := by
  intro n
  induction n with
  | zero => intro a z d h; omega
  | succ m ih =>
      intro a z d h
      cases z with
      | zero => simp [List.replicate]
      | succ k =>
          simp only [List.replicate, List.getD_cons_succ]
          exact ih a k d (by omega)

theorem getD_map_lt {α β : Type} (f : α → β) :
    ∀ (l : List α) (z : Nat) (d : β) (d0 : α), z < l.length →
      (l.map f).getD z d = f (l.getD z d0) := by
  intro l
  induction l with
  | nil => intro z d d0 h; simp at h
  | cons a rest ih =>
      intro z d d0 h
      cases z with
      | zero => simp
      | succ n =>
          simp only [List.map_cons, List.getD_cons_succ]
          exact ih n d d0 (by simpa using h)

theorem getD_take_lt {α : Type} :
    ∀ (l : List α) (n z : Nat) (d : α), z < (l.take n).length →
      (l.take n).getD z d = l.getD z d := by
  intro l
  induction l with
  | nil => intro n z d h; simp at h
  | cons a rest ih =>
      intro n z d h
      cases n with
      | zero => simp at h
      | succ m =>
          cases z with
          | zero => simp
          | succ k =>
              simp only [List.take_succ_cons, List.getD_cons_succ]
              exact ih m k d (by simpa using h)

theorem getD_mem {α : Type} :
    ∀ (l : List α) (z : Nat) (d : α), z < l.length → l.getD z d ∈ l := by
  intro l
  induction l with
  | nil => intro z d h; simp at h
  | cons a rest ih =>
      intro z d h
      cases z with
      | zero => simp
      | succ n =>
          simp only [List.getD_cons_succ]
          exact List.mem_cons_of_mem _ (ih n d (by simpa using h))

theorem getIntersectingBlocks_nodup (p : Params) (s : State)
    (leaf height : Nat) (hs : stashSorted s.stash) :
    (getIntersectingBlocks p s leaf height).Nodup :=
  (stashKeys_nodup hs).filter _

theorem mem_getIntersectingBlocks (p : Params) (s : State)
    {leaf height i : Nat} :
    i ∈ getIntersectingBlocks p s leaf height ↔
      i ∈ s.stash.map Prod.fst ∧
        getNodeOnPath p (s.position_map.getD i 0) height =
          getNodeOnPath p leaf height := by
  simp only [getIntersectingBlocks, List.mem_filter, beq_iff_eq]

theorem takeToBucket_spec (p : Params) :
    ∀ (ids : List Nat) (st : List (Nat × Block)), stashSorted st →
      ids.Nodup → (∀ i ∈ ids, (stashFind? i st).isSome) →
      (takeToBucket p ids st).1 =
        ids.map (fun i =>
          { id := i, data := (stashFind? i st).getD p.zero_block }) ∧
      stashSorted (takeToBucket p ids st).2 ∧
      List.Sublist (takeToBucket p ids st).2 st ∧
      (∀ k, stashFind? k (takeToBucket p ids st).2 =
        if k ∈ ids then none else stashFind? k st) := by
  intro ids
  induction ids with
  | nil =>
      intro st hs _ _
      refine ⟨rfl, hs, List.Sublist.refl st, ?_⟩
      intro k
      simp [takeToBucket]
  | cons i rest ih =>
      intro st hs hnd hsub
      have hisome := hsub i (List.mem_cons_self _ _)
      rcases hfound : stashFind? i st with _ | v
      · rw [hfound] at hisome; exact absurd hisome (by simp)
      · have hget : stashGetDefault p i st = (v, st) := by
          simp only [stashGetDefault, hfound]
        have hstep : takeToBucket p (i :: rest) st =
            ({ id := i, data := v } :: (takeToBucket p rest (stashErase i st)).1,
              (takeToBucket p rest (stashErase i st)).2) := by
          simp only [takeToBucket, hget]
        have hs2 : stashSorted (stashErase i st) := stashSorted_erase hs
        have hni : i ∉ rest := (List.nodup_cons.mp hnd).1
        have hnd2 : rest.Nodup := (List.nodup_cons.mp hnd).2
        have hsub2 : ∀ x ∈ rest, (stashFind? x (stashErase i st)).isSome := by
          intro x hx
          rw [stashFind?_erase hs x, if_neg (by
            intro hh; rw [hh] at hx; exact hni hx)]
          exact hsub x (List.mem_cons_of_mem _ hx)
        obtain ⟨hmap, hsorted2, hsl, hfind⟩ := ih (stashErase i st) hs2 hnd2 hsub2
        rw [hstep]
        refine ⟨?_, hsorted2, ?_, ?_⟩
        · simp only [List.map_cons, hfound]
          congr 1
          rw [hmap]
          apply List.map_congr_left
          intro x hx
          have hxi : ¬x = i := by intro hh; rw [hh] at hx; exact hni hx
          rw [stashFind?_erase hs x, if_neg hxi]
        · exact hsl.trans (stashErase_sublist i st)
        · intro k
          rw [hfind k]
          by_cases hk : k ∈ rest
          · simp [hk]
          · rw [if_neg hk, stashFind?_erase hs k]
            by_cases hki : k = i
            · simp [hki]
            · simp only [if_neg hki, List.mem_cons]
              rw [if_neg (by
                intro hh
                rcases hh with hh | hh
                · exact hki hh
                · exact hk hh)]

/-- Bucket assembled by the level body of `writePath`: the selected blocks
(at most `Z`, with their stash payloads) followed by invalidated slots. -/
def builtBucket (p : Params) (valid : List Nat) (st : List (Nat × Block)) :
    List IDBlock :=
  (takeToBucket p (valid.take p.bucketSizeZ) st).1 ++
    List.replicate (p.bucketSizeZ - valid.length) p.empty_slot

theorem writeLevel_eq (p : Params) (pos : Nat) (s : State) (l : Nat) :
    writeLevel p pos s l =
      { s with
        buckets := s.buckets.set (getNodeOnPath p pos l)
          (builtBucket p (getIntersectingBlocks p s pos l) s.stash),
        stash := (takeToBucket p
          ((getIntersectingBlocks p s pos l).take p.bucketSizeZ) s.stash).2 } :=
  rfl

theorem builtBucket_length (p : Params) (valid : List Nat)
    (st : List (Nat × Block)) (hs : stashSorted st) (hnd : valid.Nodup)
    (hsub : ∀ i ∈ valid, (stashFind? i st).isSome) :
    (builtBucket p valid st).length = p.bucketSizeZ := by
  have hspec := takeToBucket_spec p (valid.take p.bucketSizeZ) st hs
    (hnd.sublist (List.take_sublist _ _))
    (fun i hi => hsub i (List.take_subset _ _ hi))
  simp only [builtBucket, List.length_append, hspec.1, List.length_map,
    List.length_take, List.length_replicate]
  omega

theorem builtBucket_getD_lt (p : Params) (valid : List Nat)
    (st : List (Nat × Block)) (hs : stashSorted st) (hnd : valid.Nodup)
    (hsub : ∀ i ∈ valid, (stashFind? i st).isSome)
    (z : Nat) (hz : z < (valid.take p.bucketSizeZ).length) (d0 : IDBlock) :
    (builtBucket p valid st).getD z d0 =
      { id := valid.getD z 0,
        data := (stashFind? (valid.getD z 0) st).getD p.zero_block } := by
  have hspec := takeToBucket_spec p (valid.take p.bucketSizeZ) st hs
    (hnd.sublist (List.take_sublist _ _))
    (fun i hi => hsub i (List.take_subset _ _ hi))
  have hlen : (takeToBucket p (valid.take p.bucketSizeZ) st).1.length =
      (valid.take p.bucketSizeZ).length := by
    rw [hspec.1, List.length_map]
  rw [builtBucket, getD_append_lt _ _ _ _ (by rw [hlen]; exact hz), hspec.1,
    getD_map_lt _ _ _ _ 0 hz, getD_take_lt _ _ _ _ hz]

theorem builtBucket_getD_ge (p : Params) (valid : List Nat)
    (st : List (Nat × Block)) (hs : stashSorted st) (hnd : valid.Nodup)
    (hsub : ∀ i ∈ valid, (stashFind? i st).isSome)
    (z : Nat) (hz1 : (valid.take p.bucketSizeZ).length ≤ z)
    (hz2 : z < p.bucketSizeZ) (d0 : IDBlock) :
    (builtBucket p valid st).getD z d0 = p.empty_slot := by
  have hspec := takeToBucket_spec p (valid.take p.bucketSizeZ) st hs
    (hnd.sublist (List.take_sublist _ _))
    (fun i hi => hsub i (List.take_subset _ _ hi))
  have hlen : (takeToBucket p (valid.take p.bucketSizeZ) st).1.length =
      (valid.take p.bucketSizeZ).length := by
    rw [hspec.1, List.length_map]
  have htl : (valid.take p.bucketSizeZ).length = min p.bucketSizeZ valid.length :=
    List.length_take _ _
  rw [builtBucket, getD_append_ge _ _ _ _ (by omega), hlen, htl]
  refine getD_replicate _ _ _ _ ?_
  simp only [Nat.min_def] at *
  split_ifs at * <;> omega

theorem writeLevel_winv (p : Params) (hN : p.block_count_N ≤ invalid_block)
    {pos : Nat} (hpos : pos < p.leaf_count)
    {l : Nat} {ls : List Nat} (hl : l ≤ p.heightL)
    (hls : ∀ x ∈ ls, x ≤ p.heightL) (hlnot : l ∉ ls)
    {s : State} (hw : WInv p pos (l :: ls) s) :
    WInv p pos ls (writeLevel p pos s l) := by
  have hnodeZ : getNodeOnPath p pos l < p.bucket_count :=
    getNodeOnPath_lt_bucket_count p hpos hl
  have hnode_lt : getNodeOnPath p pos l < s.buckets.length := by
    rw [hw.buckets_len]; exact hnodeZ
  have hnode_not : getNodeOnPath p pos l ∉ staleNodes p pos ls := by
    intro hmem
    rcases List.mem_map.mp hmem with ⟨x, hx, hxeq⟩
    have hxl := getNodeOnPath_level_injective p hpos hpos (hls x hx) hl hxeq
    rw [hxl] at hx
    exact hlnot hx
  have hvnodup : (getIntersectingBlocks p s pos l).Nodup :=
    getIntersectingBlocks_nodup p s pos l hw.sorted
  have hvsub : ∀ i ∈ getIntersectingBlocks p s pos l,
      (stashFind? i s.stash).isSome := by
    intro i hi
    rw [stashFind?_isSome_iff]
    exact ((mem_getIntersectingBlocks p s).mp hi).1
  obtain ⟨hmap, hsorted2, hsl, hfind⟩ := takeToBucket_spec p
    ((getIntersectingBlocks p s pos l).take p.bucketSizeZ) s.stash hw.sorted
    (hvnodup.sublist (List.take_sublist _ _))
    (fun i hi => hvsub i (List.take_subset _ _ hi))
  have hbkts : ∀ j, (writeLevel p pos s l).buckets.getD j [] =
      if j = getNodeOnPath p pos l
      then builtBucket p (getIntersectingBlocks p s pos l) s.stash
      else s.buckets.getD j [] := by
    intro j
    rw [writeLevel_eq]
    by_cases hj : j = getNodeOnPath p pos l
    · rw [if_pos hj, hj]
      exact getD_set_self _ _ _ _ hnode_lt
    · rw [if_neg hj]
      exact getD_set_ne _ _ _ _ _ (fun hh => hj hh.symm)
  have hslot : ∀ j z, slotAt (writeLevel p pos s l) j z =
      if j = getNodeOnPath p pos l
      then (builtBucket p (getIntersectingBlocks p s pos l) s.stash).getD z
        { id := invalid_block, data := [] }
      else slotAt s j z := by
    intro j z
    by_cases hj : j = getNodeOnPath p pos l
    · rw [if_pos hj]
      simp only [slotAt]
      rw [hbkts j, if_pos hj]
    · rw [if_neg hj]
      simp only [slotAt]
      rw [hbkts j, if_neg hj]
  have hstash2 : (writeLevel p pos s l).stash =
      (takeToBucket p ((getIntersectingBlocks p s pos l).take p.bucketSizeZ)
        s.stash).2 := by
    rw [writeLevel_eq]
  have hlen2 : (writeLevel p pos s l).buckets.length = s.buckets.length := by
    rw [writeLevel_eq]
    exact List.length_set _ _ _
  have hbblen : (builtBucket p (getIntersectingBlocks p s pos l) s.stash).length =
      p.bucketSizeZ :=
    builtBucket_length p _ _ hw.sorted hvnodup hvsub
  have hselmem : ∀ z, z < ((getIntersectingBlocks p s pos l).take p.bucketSizeZ).length →
      (getIntersectingBlocks p s pos l).getD z 0 ∈
        (getIntersectingBlocks p s pos l).take p.bucketSizeZ := by
    intro z hz
    rw [← getD_take_lt _ p.bucketSizeZ z 0 hz]
    exact getD_mem _ _ _ hz
  have hselstash : ∀ i ∈ (getIntersectingBlocks p s pos l).take p.bucketSizeZ,
      (stashFind? i s.stash).isSome :=
    fun i hi => hvsub i (List.take_subset _ _ hi)
  have hselN : ∀ i ∈ (getIntersectingBlocks p s pos l).take p.bucketSizeZ,
      i < p.block_count_N := by
    intro i hi
    have := hselstash i hi
    rw [stashFind?_isSome_iff] at this
    rcases List.mem_map.mp this with ⟨e, he, hei⟩
    rw [← hei]
    exact hw.stash_keys e he
  have hselpath : ∀ i ∈ (getIntersectingBlocks p s pos l).take p.bucketSizeZ,
      getNodeOnPath p (s.position_map.getD i 0) l = getNodeOnPath p pos l := by
    intro i hi
    exact ((mem_getIntersectingBlocks p s).mp (List.take_subset _ _ hi)).2
  have hstale : staleNodes p pos (l :: ls) =
      getNodeOnPath p pos l :: staleNodes p pos ls := rfl
  constructor
  · rw [hlen2, hw.buckets_len]
  · intro j hj
    rw [hlen2] at hj
    rw [hbkts j]
    by_cases hjn : j = getNodeOnPath p pos l
    · rw [if_pos hjn]; exact hbblen
    · rw [if_neg hjn]; exact hw.bucket_len j hj
  · rw [writeLevel_eq]; exact hw.pm_len
  · rw [writeLevel_eq]; exact hw.pm_range
  · rw [hstash2]; exact hsorted2
  · intro e he
    rw [hstash2] at he
    exact hw.stash_keys e (hsl.subset he)
  · -- tree_ids
    intro j z hj hz hvid
    rw [hlen2] at hj
    rw [hslot j z] at hvid ⊢
    by_cases hjn : j = getNodeOnPath p pos l
    · rw [if_pos hjn] at hvid ⊢
      rw [hbkts j, if_pos hjn, hbblen] at hz
      by_cases hzl : z < ((getIntersectingBlocks p s pos l).take p.bucketSizeZ).length
      · rw [builtBucket_getD_lt p _ _ hw.sorted hvnodup hvsub z hzl] at hvid ⊢
        exact hselN _ (hselmem z hzl)
      · rw [builtBucket_getD_ge p _ _ hw.sorted hvnodup hvsub z (by omega) hz] at hvid
        exact absurd rfl hvid
    · rw [if_neg hjn] at hvid ⊢
      rw [hbkts j, if_neg hjn] at hz
      exact hw.tree_ids j z hj hz hvid
  · -- clean_not_in_stash
    intro j z hj hz hjstale hvid
    rw [hlen2] at hj
    rw [hslot j z] at hvid ⊢
    rw [hstash2]
    by_cases hjn : j = getNodeOnPath p pos l
    · rw [if_pos hjn] at hvid ⊢
      rw [hbkts j, if_pos hjn, hbblen] at hz
      by_cases hzl : z < ((getIntersectingBlocks p s pos l).take p.bucketSizeZ).length
      · rw [builtBucket_getD_lt p _ _ hw.sorted hvnodup hvsub z hzl] at hvid ⊢
        rw [hfind]
        exact if_pos (hselmem z hzl)
      · rw [builtBucket_getD_ge p _ _ hw.sorted hvnodup hvsub z (by omega) hz] at hvid
        exact absurd rfl hvid
    · rw [if_neg hjn] at hvid ⊢
      rw [hbkts j, if_neg hjn] at hz
      have hjex : j ∉ staleNodes p pos (l :: ls) := by
        rw [hstale]
        intro hmem
        rcases List.mem_cons.mp hmem with he | he
        · exact hjn he
        · exact hjstale he
      have hold := hw.clean_not_in_stash j z hj hz hjex hvid
      rw [hfind]
      rw [if_neg ?_]
      · exact hold
      · intro hmem
        have := hselstash _ hmem
        rw [hold] at this
        exact Bool.noConfusion this
  · -- clean_unique
    intro j z j' z' hj hz hj' hz' hjs hjs' hvid heq
    rw [hlen2] at hj hj'
    rw [hslot j z] at hvid heq
    rw [hslot j' z'] at heq
    rw [hbkts j] at hz
    rw [hbkts j'] at hz'
    by_cases hjn : j = getNodeOnPath p pos l <;>
      by_cases hjn' : j' = getNodeOnPath p pos l
    · -- both in the fresh bucket
      rw [if_pos hjn] at hvid heq
      rw [if_pos hjn'] at heq
      rw [if_pos hjn, hbblen] at hz
      rw [if_pos hjn', hbblen] at hz'
      refine ⟨by rw [hjn, hjn'], ?_⟩
      by_cases hzl : z < ((getIntersectingBlocks p s pos l).take p.bucketSizeZ).length
      · by_cases hzl' : z' < ((getIntersectingBlocks p s pos l).take p.bucketSizeZ).length
        · rw [builtBucket_getD_lt p _ _ hw.sorted hvnodup hvsub z hzl] at hvid heq
          rw [builtBucket_getD_lt p _ _ hw.sorted hvnodup hvsub z' hzl'] at heq
          simp only at heq
          have hndtake : ((getIntersectingBlocks p s pos l).take p.bucketSizeZ).Nodup :=
            hvnodup.sublist (List.take_sublist _ _)
          have hz0 : ((getIntersectingBlocks p s pos l).take p.bucketSizeZ).getD z 0 =
              (getIntersectingBlocks p s pos l).getD z 0 := getD_take_lt _ _ _ _ hzl
          have hz0' : ((getIntersectingBlocks p s pos l).take p.bucketSizeZ).getD z' 0 =
              (getIntersectingBlocks p s pos l).getD z' 0 := getD_take_lt _ _ _ _ hzl'
          have heq' : ((getIntersectingBlocks p s pos l).take p.bucketSizeZ).getD z 0 =
              ((getIntersectingBlocks p s pos l).take p.bucketSizeZ).getD z' 0 := by
            rw [hz0, hz0']; exact heq
          rw [List.getD_eq_getElem?_getD, List.getD_eq_getElem?_getD,
            List.getElem?_eq_getElem hzl, List.getElem?_eq_getElem hzl'] at heq'
          simp only [Option.getD_some] at heq'
          exact (List.Nodup.getElem_inj_iff hndtake).mp heq'
        · rw [builtBucket_getD_ge p _ _ hw.sorted hvnodup hvsub z' (by omega) hz'] at heq
          rw [builtBucket_getD_lt p _ _ hw.sorted hvnodup hvsub z hzl] at hvid heq
          simp only [Params.empty_slot] at heq
          have := hselN _ (hselmem z hzl)
          omega
      · rw [builtBucket_getD_ge p _ _ hw.sorted hvnodup hvsub z (by omega) hz] at hvid
        exact absurd rfl hvid
    · -- fresh bucket vs old clean bucket
      rw [if_pos hjn] at hvid heq
      rw [if_neg hjn'] at heq
      rw [if_pos hjn, hbblen] at hz
      rw [if_neg hjn'] at hz'
      exfalso
      by_cases hzl : z < ((getIntersectingBlocks p s pos l).take p.bucketSizeZ).length
      · rw [builtBucket_getD_lt p _ _ hw.sorted hvnodup hvsub z hzl] at hvid heq
        have hjex' : j' ∉ staleNodes p pos (l :: ls) := by
          rw [hstale]
          intro hmem
          rcases List.mem_cons.mp hmem with he | he
          · exact hjn' he
          · exact hjs' he
        have hvid' : (slotAt s j' z').id ≠ invalid_block := by
          rw [← heq]
          simp only
          have := hselN _ (hselmem z hzl)
          omega
        have hnone := hw.clean_not_in_stash j' z' hj' hz' hjex' hvid'
        rw [← heq] at hnone
        simp only at hnone
        have := hselstash _ (hselmem z hzl)
        rw [hnone] at this
        exact Bool.noConfusion this
      · rw [builtBucket_getD_ge p _ _ hw.sorted hvnodup hvsub z (by omega) hz] at hvid
        exact absurd rfl hvid
    · -- old clean bucket vs fresh bucket
      rw [if_neg hjn] at hvid heq
      rw [if_pos hjn'] at heq
      rw [if_neg hjn] at hz
      rw [if_pos hjn', hbblen] at hz'
      exfalso
      have hjex : j ∉ staleNodes p pos (l :: ls) := by
        rw [hstale]
        intro hmem
        rcases List.mem_cons.mp hmem with he | he
        · exact hjn he
        · exact hjs he
      have hnone := hw.clean_not_in_stash j z hj hz hjex hvid
      by_cases hzl' : z' < ((getIntersectingBlocks p s pos l).take p.bucketSizeZ).length
      · rw [builtBucket_getD_lt p _ _ hw.sorted hvnodup hvsub z' hzl'] at heq
        simp only at heq
        rw [heq] at hnone
        have := hselstash _ (hselmem z' hzl')
        rw [hnone] at this
        exact Bool.noConfusion this
      · rw [builtBucket_getD_ge p _ _ hw.sorted hvnodup hvsub z' (by omega) hz'] at heq
        simp only [Params.empty_slot] at heq
        exact hvid (heq ▸ rfl)
    · -- both old clean buckets
      rw [if_neg hjn] at hvid heq
      rw [if_neg hjn'] at heq
      rw [if_neg hjn] at hz
      rw [if_neg hjn'] at hz'
      have hjex : j ∉ staleNodes p pos (l :: ls) := by
        rw [hstale]
        intro hmem
        rcases List.mem_cons.mp hmem with he | he
        · exact hjn he
        · exact hjs he
      have hjex' : j' ∉ staleNodes p pos (l :: ls) := by
        rw [hstale]
        intro hmem
        rcases List.mem_cons.mp hmem with he | he
        · exact hjn' he
        · exact hjs' he
      exact hw.clean_unique j z j' z' hj hz hj' hz' hjex hjex' hvid heq
  · -- clean_bpi
    intro j z hj hz hjs hvid
    rw [hlen2] at hj
    rw [hslot j z] at hvid ⊢
    rw [hbkts j] at hz
    rw [writeLevel_eq]
    by_cases hjn : j = getNodeOnPath p pos l
    · rw [if_pos hjn] at hvid ⊢
      rw [if_pos hjn, hbblen] at hz
      by_cases hzl : z < ((getIntersectingBlocks p s pos l).take p.bucketSizeZ).length
      · rw [builtBucket_getD_lt p _ _ hw.sorted hvnodup hvsub z hzl] at hvid ⊢
        refine ⟨l, hl, ?_⟩
        simp only
        rw [hselpath _ (hselmem z hzl), hjn]
      · rw [builtBucket_getD_ge p _ _ hw.sorted hvnodup hvsub z (by omega) hz] at hvid
        exact absurd rfl hvid
    · rw [if_neg hjn] at hvid ⊢
      rw [if_neg hjn] at hz
      have hjex : j ∉ staleNodes p pos (l :: ls) := by
        rw [hstale]
        intro hmem
        rcases List.mem_cons.mp hmem with he | he
        · exact hjn he
        · exact hjs he
      exact hw.clean_bpi j z hj hz hjex hvid

theorem writeLevel_hasval (p : Params) (hN : p.block_count_N ≤ invalid_block)
    {pos : Nat} (hpos : pos < p.leaf_count)
    {l : Nat} {ls : List Nat} (hl : l ≤ p.heightL)
    (hls : ∀ x ∈ ls, x ≤ p.heightL) (hlnot : l ∉ ls)
    {s : State} (hw : WInv p pos (l :: ls) s) :
    ∀ k v, HasValE s (staleNodes p pos (l :: ls)) k v →
      HasValE (writeLevel p pos s l) (staleNodes p pos ls) k v := by
  have hnodeZ : getNodeOnPath p pos l < p.bucket_count :=
    getNodeOnPath_lt_bucket_count p hpos hl
  have hnode_lt : getNodeOnPath p pos l < s.buckets.length := by
    rw [hw.buckets_len]; exact hnodeZ
  have hnode_not : getNodeOnPath p pos l ∉ staleNodes p pos ls := by
    intro hmem
    rcases List.mem_map.mp hmem with ⟨x, hx, hxeq⟩
    have hxl := getNodeOnPath_level_injective p hpos hpos (hls x hx) hl hxeq
    rw [hxl] at hx
    exact hlnot hx
  have hvnodup : (getIntersectingBlocks p s pos l).Nodup :=
    getIntersectingBlocks_nodup p s pos l hw.sorted
  have hvsub : ∀ i ∈ getIntersectingBlocks p s pos l,
      (stashFind? i s.stash).isSome := by
    intro i hi
    rw [stashFind?_isSome_iff]
    exact ((mem_getIntersectingBlocks p s).mp hi).1
  obtain ⟨hmap, hsorted2, hsl, hfind⟩ := takeToBucket_spec p
    ((getIntersectingBlocks p s pos l).take p.bucketSizeZ) s.stash hw.sorted
    (hvnodup.sublist (List.take_sublist _ _))
    (fun i hi => hvsub i (List.take_subset _ _ hi))
  have hbkts : ∀ j, (writeLevel p pos s l).buckets.getD j [] =
      if j = getNodeOnPath p pos l
      then builtBucket p (getIntersectingBlocks p s pos l) s.stash
      else s.buckets.getD j [] := by
    intro j
    rw [writeLevel_eq]
    by_cases hj : j = getNodeOnPath p pos l
    · rw [if_pos hj, hj]
      exact getD_set_self _ _ _ _ hnode_lt
    · rw [if_neg hj]
      exact getD_set_ne _ _ _ _ _ (fun hh => hj hh.symm)
  have hslot : ∀ j z, slotAt (writeLevel p pos s l) j z =
      if j = getNodeOnPath p pos l
      then (builtBucket p (getIntersectingBlocks p s pos l) s.stash).getD z
        { id := invalid_block, data := [] }
      else slotAt s j z := by
    intro j z
    by_cases hj : j = getNodeOnPath p pos l
    · rw [if_pos hj]
      simp only [slotAt]
      rw [hbkts j, if_pos hj]
    · rw [if_neg hj]
      simp only [slotAt]
      rw [hbkts j, if_neg hj]
  have hstash2 : (writeLevel p pos s l).stash =
      (takeToBucket p ((getIntersectingBlocks p s pos l).take p.bucketSizeZ)
        s.stash).2 := by
    rw [writeLevel_eq]
  have hlen2 : (writeLevel p pos s l).buckets.length = s.buckets.length := by
    rw [writeLevel_eq]
    exact List.length_set _ _ _
  have hbblen : (builtBucket p (getIntersectingBlocks p s pos l) s.stash).length =
      p.bucketSizeZ :=
    builtBucket_length p _ _ hw.sorted hvnodup hvsub
  have hselstash : ∀ i ∈ (getIntersectingBlocks p s pos l).take p.bucketSizeZ,
      (stashFind? i s.stash).isSome :=
    fun i hi => hvsub i (List.take_subset _ _ hi)
  have hstale : staleNodes p pos (l :: ls) =
      getNodeOnPath p pos l :: staleNodes p pos ls := rfl
  intro k v hkv
  rcases hkv with hstash | ⟨hnone, j, z, hj, hz, hjex, hid, hdata⟩
  · by_cases hksel : k ∈ (getIntersectingBlocks p s pos l).take p.bucketSizeZ
    · right
      constructor
      · rw [hstash2, hfind]
        exact if_pos hksel
      · rcases List.mem_iff_getElem.mp hksel with ⟨n, hn, hkn⟩
        have hkid : (getIntersectingBlocks p s pos l).getD n 0 = k := by
          rw [← getD_take_lt _ p.bucketSizeZ n 0 hn,
            List.getD_eq_getElem?_getD, List.getElem?_eq_getElem hn]
          simp [hkn]
        refine ⟨getNodeOnPath p pos l, n, ?_, ?_, hnode_not, ?_, ?_⟩
        · rw [hlen2]; exact hnode_lt
        · rw [hbkts _, if_pos rfl, hbblen]
          have hle : ((getIntersectingBlocks p s pos l).take p.bucketSizeZ).length ≤
              p.bucketSizeZ := by
            rw [List.length_take]; exact Nat.min_le_left _ _
          omega
        · rw [hslot, if_pos rfl,
            builtBucket_getD_lt p _ _ hw.sorted hvnodup hvsub n hn]
          simp only
          exact hkid
        · rw [hslot, if_pos rfl,
            builtBucket_getD_lt p _ _ hw.sorted hvnodup hvsub n hn]
          simp only
          rw [hkid, hstash]
          rfl
    · left
      rw [hstash2, hfind, if_neg hksel]
      exact hstash
  · have hjn : j ≠ getNodeOnPath p pos l := by
      intro hh
      exact hjex (by rw [hstale, hh]; exact List.mem_cons_self _ _)
    have hksel : k ∉ (getIntersectingBlocks p s pos l).take p.bucketSizeZ := by
      intro hmem
      have := hselstash _ hmem
      rw [hnone] at this
      exact Bool.noConfusion this
    right
    refine ⟨by rw [hstash2, hfind, if_neg hksel]; exact hnone,
      j, z, by rw [hlen2]; exact hj, ?_, ?_, ?_, ?_⟩
    · rw [hbkts j, if_neg hjn]; exact hz
    · intro hmem
      exact hjex (by rw [hstale]; exact List.mem_cons_of_mem _ hmem)
    · rw [hslot j z, if_neg hjn]; exact hid
    · rw [hslot j z, if_neg hjn]; exact hdata

theorem writeLevel_absent (p : Params) (hN : p.block_count_N ≤ invalid_block)
    {pos : Nat} (hpos : pos < p.leaf_count)
    {l : Nat} {ls : List Nat} (hl : l ≤ p.heightL)
    (hls : ∀ x ∈ ls, x ≤ p.heightL) (hlnot : l ∉ ls)
    {s : State} (hw : WInv p pos (l :: ls) s) :
    ∀ k, k ≠ invalid_block → AbsentE s (staleNodes p pos (l :: ls)) k →
      AbsentE (writeLevel p pos s l) (staleNodes p pos ls) k := by
  have hnodeZ : getNodeOnPath p pos l < p.bucket_count :=
    getNodeOnPath_lt_bucket_count p hpos hl
  have hnode_lt : getNodeOnPath p pos l < s.buckets.length := by
    rw [hw.buckets_len]; exact hnodeZ
  have hvnodup : (getIntersectingBlocks p s pos l).Nodup :=
    getIntersectingBlocks_nodup p s pos l hw.sorted
  have hvsub : ∀ i ∈ getIntersectingBlocks p s pos l,
      (stashFind? i s.stash).isSome := by
    intro i hi
    rw [stashFind?_isSome_iff]
    exact ((mem_getIntersectingBlocks p s).mp hi).1
  obtain ⟨hmap, hsorted2, hsl, hfind⟩ := takeToBucket_spec p
    ((getIntersectingBlocks p s pos l).take p.bucketSizeZ) s.stash hw.sorted
    (hvnodup.sublist (List.take_sublist _ _))
    (fun i hi => hvsub i (List.take_subset _ _ hi))
  have hbkts : ∀ j, (writeLevel p pos s l).buckets.getD j [] =
      if j = getNodeOnPath p pos l
      then builtBucket p (getIntersectingBlocks p s pos l) s.stash
      else s.buckets.getD j [] := by
    intro j
    rw [writeLevel_eq]
    by_cases hj : j = getNodeOnPath p pos l
    · rw [if_pos hj, hj]
      exact getD_set_self _ _ _ _ hnode_lt
    · rw [if_neg hj]
      exact getD_set_ne _ _ _ _ _ (fun hh => hj hh.symm)
  have hslot : ∀ j z, slotAt (writeLevel p pos s l) j z =
      if j = getNodeOnPath p pos l
      then (builtBucket p (getIntersectingBlocks p s pos l) s.stash).getD z
        { id := invalid_block, data := [] }
      else slotAt s j z := by
    intro j z
    by_cases hj : j = getNodeOnPath p pos l
    · rw [if_pos hj]
      simp only [slotAt]
      rw [hbkts j, if_pos hj]
    · rw [if_neg hj]
      simp only [slotAt]
      rw [hbkts j, if_neg hj]
  have hstash2 : (writeLevel p pos s l).stash =
      (takeToBucket p ((getIntersectingBlocks p s pos l).take p.bucketSizeZ)
        s.stash).2 := by
    rw [writeLevel_eq]
  have hlen2 : (writeLevel p pos s l).buckets.length = s.buckets.length := by
    rw [writeLevel_eq]
    exact List.length_set _ _ _
  have hbblen : (builtBucket p (getIntersectingBlocks p s pos l) s.stash).length =
      p.bucketSizeZ :=
    builtBucket_length p _ _ hw.sorted hvnodup hvsub
  have hselstash : ∀ i ∈ (getIntersectingBlocks p s pos l).take p.bucketSizeZ,
      (stashFind? i s.stash).isSome :=
    fun i hi => hvsub i (List.take_subset _ _ hi)
  have hselmem : ∀ z, z < ((getIntersectingBlocks p s pos l).take p.bucketSizeZ).length →
      (getIntersectingBlocks p s pos l).getD z 0 ∈
        (getIntersectingBlocks p s pos l).take p.bucketSizeZ := by
    intro z hz
    rw [← getD_take_lt _ p.bucketSizeZ z 0 hz]
    exact getD_mem _ _ _ hz
  have hstale : staleNodes p pos (l :: ls) =
      getNodeOnPath p pos l :: staleNodes p pos ls := rfl
  intro k hkinv habs
  obtain ⟨hnone, hno⟩ := habs
  have hksel : k ∉ (getIntersectingBlocks p s pos l).take p.bucketSizeZ := by
    intro hmem
    have := hselstash _ hmem
    rw [hnone] at this
    exact Bool.noConfusion this
  constructor
  · rw [hstash2, hfind, if_neg hksel]
    exact hnone
  · intro j z hj hz hjex
    rw [hslot j z]
    rw [hlen2] at hj
    rw [hbkts j] at hz
    by_cases hjn : j = getNodeOnPath p pos l
    · rw [if_pos hjn]
      rw [if_pos hjn, hbblen] at hz
      by_cases hzl : z < ((getIntersectingBlocks p s pos l).take p.bucketSizeZ).length
      · rw [builtBucket_getD_lt p _ _ hw.sorted hvnodup hvsub z hzl]
        simp only
        intro hh
        have := hselstash _ (hselmem z hzl)
        rw [hh, hnone] at this
        exact Bool.noConfusion this
      · rw [builtBucket_getD_ge p _ _ hw.sorted hvnodup hvsub z (by omega) hz]
        simp only [Params.empty_slot]
        intro hh
        exact hkinv hh.symm
    · rw [if_neg hjn]
      rw [if_neg hjn] at hz
      refine hno j z hj hz ?_
      intro hmem
      rw [hstale] at hmem
      rcases List.mem_cons.mp hmem with he | he
      · exact hjn he
      · exact hjex he

theorem writePath_fold (p : Params) (hN : p.block_count_N ≤ invalid_block)
    {pos : Nat} (hpos : pos < p.leaf_count) :
    ∀ (ls : List Nat) (s : State), (∀ x ∈ ls, x ≤ p.heightL) → ls.Nodup →
      WInv p pos ls s →
      WInv p pos [] (ls.foldl (writeLevel p pos) s) ∧
      (∀ k v, HasValE s (staleNodes p pos ls) k v →
        HasValE (ls.foldl (writeLevel p pos) s) [] k v) ∧
      (∀ k, k ≠ invalid_block → AbsentE s (staleNodes p pos ls) k →
        AbsentE (ls.foldl (writeLevel p pos) s) [] k) := by
  intro ls
  induction ls with
  | nil =>
      intro s _ _ hw
      exact ⟨hw, fun k v h => h, fun k _ h => h⟩
  | cons l rest ih =>
      intro s hle hnd hw
      have hl : l ≤ p.heightL := hle l (List.mem_cons_self _ _)
      have hrle : ∀ x ∈ rest, x ≤ p.heightL :=
        fun x hx => hle x (List.mem_cons_of_mem _ hx)
      have hlnot : l ∉ rest := (List.nodup_cons.mp hnd).1
      have hrnd : rest.Nodup := (List.nodup_cons.mp hnd).2
      rw [List.foldl_cons]
      obtain ⟨ha, hb, hc⟩ := ih (writeLevel p pos s l) hrle hrnd
        (writeLevel_winv p hN hpos hl hrle hlnot hw)
      refine ⟨ha, ?_, ?_⟩
      · intro k v h
        exact hb k v (writeLevel_hasval p hN hpos hl hrle hlnot hw k v h)
      · intro k hk h
        exact hc k hk (writeLevel_absent p hN hpos hl hrle hlnot hw k hk h)

theorem winv_nil_pos (p : Params) (pos pos' : Nat) {s : State}
    (h : WInv p pos [] s) : WInv p pos' [] s :=
  ⟨h.buckets_len, h.bucket_len, h.pm_len, h.pm_range, h.sorted, h.stash_keys,
    h.tree_ids, h.clean_not_in_stash, h.clean_unique, h.clean_bpi⟩

theorem mem_to_getD {α : Type} {l : List α} {a : α} (h : a ∈ l) (d : α) :
    ∃ z, z < l.length ∧ l.getD z d = a := by
  rcases List.mem_iff_getElem.mp h with ⟨n, hn, hna⟩
  refine ⟨n, hn, ?_⟩
  rw [List.getD_eq_getElem?_getD, List.getElem?_eq_getElem hn]
  simpa using hna

theorem treeVal_buckets_congr {s s' : State} (h : s'.buckets = s.buckets)
    (excl : List Nat) (k : Nat) (v : Block) :
    TreeVal s' excl k v ↔ TreeVal s excl k v := by
  unfold TreeVal slotAt
  rw [h]

theorem noTreeOcc_buckets_congr {s s' : State} (h : s'.buckets = s.buckets)
    (excl : List Nat) (k : Nat) :
    (∀ j z, j < s'.buckets.length → z < (s'.buckets.getD j []).length →
      j ∉ excl → (slotAt s' j z).id ≠ k) ↔
    (∀ j z, j < s.buckets.length → z < (s.buckets.getD j []).length →
      j ∉ excl → (slotAt s j z).id ≠ k) := by
  unfold slotAt
  rw [h]

/-- State just after the remap of `position_map[blk]` and RNG advance. -/
def preState (p : Params) (blk : Nat) (s : State) : State :=
  { s with
    position_map := s.position_map.set blk (randomPath p s.rng).1,
    rng := (randomPath p s.rng).2 }

/-- State after remap, path read, and the logical operation on the stash. -/
def midState (p : Params) (op : Op) (blk : Nat) (b : Block) (s : State) :
    State :=
  match op with
  | .Read =>
      { readPathS p (s.position_map.getD blk 0) (preState p blk s) with
        stash := (stashGetDefault p blk
          (readPathS p (s.position_map.getD blk 0) (preState p blk s)).stash).2 }
  | .Write =>
      { readPathS p (s.position_map.getD blk 0) (preState p blk s) with
        stash := stashAssign blk b
          (readPathS p (s.position_map.getD blk 0) (preState p blk s)).stash }

theorem accessRun_state_eq (p : Params) (op : Op) (blk : Nat) (b : Block)
    (s : State) :
    (accessRun p op blk b s).2.1 =
      writePathS p (s.position_map.getD blk 0) (midState p op blk b s) := by
  cases op <;>
    simp only [accessRun, readPath_eq, writePath_eq, midState, preState]

theorem accessRun_out_eq_read (p : Params) (blk : Nat) (b : Block) (s : State) :
    (accessRun p .Read blk b s).1 =
      (stashGetDefault p blk
        (readPathS p (s.position_map.getD blk 0) (preState p blk s)).stash).1 := by
  simp only [accessRun, readPath_eq, preState]

theorem accessRun_out_eq_write (p : Params) (blk : Nat) (b : Block) (s : State) :
    (accessRun p .Write blk b s).1 = b := by
  simp only [accessRun, readPath_eq]

theorem slotAt_congr {s s' : State} (h : s'.buckets = s.buckets) :
    ∀ j z, slotAt s' j z = slotAt s j z := by
  intro j z
  unfold slotAt
  rw [h]

theorem getD_oob {α : Type} (l : List α) (j : Nat) (d : α)
    (h : l.length ≤ j) : l.getD j d = d := by
  rw [List.getD_eq_getElem?_getD, List.getElem?_eq_none h]
  rfl

theorem read_find_persist (p : Params) (blk : Nat) (s : State)
    (hs : stashSorted s.stash) {k : Nat} {v : Block}
    (h : stashFind? k s.stash = some v) :
    stashFind? k
      (readPathS p (s.position_map.getD blk 0) (preState p blk s)).stash =
      some v :=
  readFold_find_old p _ _ _ hs h

theorem read_find_no_occurrence (p : Params) (blk : Nat) (s : State)
    (hs : stashSorted s.stash) {k : Nat}
    (hnone : stashFind? k s.stash = none)
    (hno : ∀ j z, j < s.buckets.length → z < (s.buckets.getD j []).length →
      (slotAt s j z).id ≠ k) :
    stashFind? k
      (readPathS p (s.position_map.getD blk 0) (preState p blk s)).stash =
      none := by
  refine readFold_find_none p _ _ _ hs hnone ?_
  have hpre : (preState p blk s).buckets = s.buckets := rfl
  intro l hl slot hslot
  rw [hpre] at hslot
  by_cases hj : getNodeOnPath p (s.position_map.getD blk 0) l < s.buckets.length
  · rcases mem_to_getD hslot { id := invalid_block, data := [] } with ⟨z, hz, hzs⟩
    intro hid
    refine hno _ z hj hz ?_
    show ((s.buckets.getD _ []).getD z { id := invalid_block, data := [] }).id = k
    rw [hzs, hid]
  · rw [getD_oob _ _ _ (by omega)] at hslot
    simp at hslot

theorem read_find_offpath (p : Params) (blk : Nat) (s : State)
    (hwf : WF p s) {k : Nat} {j z : Nat}
    (hnone : stashFind? k s.stash = none) (hkinv : k ≠ invalid_block)
    (hj : j < s.buckets.length) (hz : z < (s.buckets.getD j []).length)
    (hid : (slotAt s j z).id = k)
    (hoff : ∀ l, l ≤ p.heightL →
      getNodeOnPath p (s.position_map.getD blk 0) l ≠ j) :
    stashFind? k
      (readPathS p (s.position_map.getD blk 0) (preState p blk s)).stash =
      none := by
  refine readFold_find_none p _ _ _ hwf.sorted hnone ?_
  have hpre : (preState p blk s).buckets = s.buckets := rfl
  intro l hl slot hslot hsid
  rw [hpre] at hslot
  rw [List.mem_range] at hl
  by_cases hjl : getNodeOnPath p (s.position_map.getD blk 0) l < s.buckets.length
  · rcases mem_to_getD hslot { id := invalid_block, data := [] } with ⟨z', hz', hzs⟩
    have hida : (slotAt s (getNodeOnPath p (s.position_map.getD blk 0) l) z').id =
        k := by
      show ((s.buckets.getD _ []).getD z' { id := invalid_block, data := [] }).id = k
      rw [hzs, hsid]
    have heq := hwf.clean_unique _ z' j z hjl hz' hj hz
      (by simp [staleNodes]) (by simp [staleNodes])
      (by rw [hida]; exact hkinv)
      (by rw [hida, hid])
    exact hoff l (by omega) heq.1
  · rw [getD_oob _ _ _ (by omega)] at hslot
    simp at hslot

theorem read_find_onpath (p : Params) (blk : Nat) (s : State)
    (hwf : WF p s) {k : Nat} {v : Block} {j z : Nat}
    (hnone : stashFind? k s.stash = none) (hkinv : k ≠ invalid_block)
    (hj : j < s.buckets.length) (hz : z < (s.buckets.getD j []).length)
    (hid : (slotAt s j z).id = k) (hdata : (slotAt s j z).data = v)
    {h0 : Nat} (hh0 : h0 ≤ p.heightL)
    (hjpath : getNodeOnPath p (s.position_map.getD blk 0) h0 = j) :
    stashFind? k
      (readPathS p (s.position_map.getD blk 0) (preState p blk s)).stash =
      some v := by
  have hpre : (preState p blk s).buckets = s.buckets := rfl
  refine readFold_find_new p _ _ _ hwf.sorted hnone hkinv ?_ ?_
  · refine ⟨h0, List.mem_range.mpr (by omega),
      (s.buckets.getD j []).getD z { id := invalid_block, data := [] },
      ?_, hid, hdata⟩
    rw [hpre, hjpath]
    exact getD_mem _ _ _ hz
  · intro l hl slot hslot hsid
    rw [hpre] at hslot
    rw [List.mem_range] at hl
    by_cases hjl : getNodeOnPath p (s.position_map.getD blk 0) l < s.buckets.length
    · rcases mem_to_getD hslot { id := invalid_block, data := [] } with ⟨z', hz', hzs⟩
      have hida : (slotAt s (getNodeOnPath p (s.position_map.getD blk 0) l) z').id =
          k := by
        show ((s.buckets.getD _ []).getD z' { id := invalid_block, data := [] }).id = k
        rw [hzs, hsid]
      have heq := hwf.clean_unique _ z' j z hjl hz' hj hz
        (by simp [staleNodes]) (by simp [staleNodes])
        (by rw [hida]; exact hkinv)
        (by rw [hida, hid])
      have hslot_eq : slot = slotAt s j z := by
        rw [← hzs]
        show _ = slotAt s j z
        rw [← heq.1, ← heq.2]
        rfl
      rw [hslot_eq, hdata]
    · rw [getD_oob _ _ _ (by omega)] at hslot
      simp at hslot

theorem randomPath_lt (p : Params) (rng : Nat → Nat) :
    (randomPath p rng).1 < p.leaf_count := by
  have h1 := bucket_count_div_two p
  have h2 := leaf_count_pos p
  have h3 : rng 0 % (p.bucket_count / 2 + 1) < p.bucket_count / 2 + 1 :=
    Nat.mod_lt _ (by omega)
  simp only [randomPath]
  omega

theorem winv_mid (p : Params) (hN : p.block_count_N ≤ invalid_block)
    (blk : Nat) (s : State) (hblk : blk < p.block_count_N) (hwf : WF p s)
    (st3 : List (Nat × Block))
    (h3sorted : stashSorted st3)
    (h3keys : ∀ e ∈ st3, e.1 < p.block_count_N)
    (h3none : ∀ i, i ≠ blk →
      stashFind? i
        (readPathS p (s.position_map.getD blk 0) (preState p blk s)).stash =
        none →
      stashFind? i st3 = none) :
    WInv p (s.position_map.getD blk 0) ((List.range (p.heightL + 1)).reverse)
      { readPathS p (s.position_map.getD blk 0) (preState p blk s) with
        stash := st3 } := by
  have hpos : s.position_map.getD blk 0 < p.leaf_count := hwf.pm_range blk hblk
  have hblkinv : blk ≠ invalid_block := by omega
  have hs2b : (readPathS p (s.position_map.getD blk 0)
      (preState p blk s)).buckets = s.buckets :=
    readFold_buckets p _ _ (preState p blk s)
  have hs2pm : (readPathS p (s.position_map.getD blk 0)
      (preState p blk s)).position_map = (preState p blk s).position_map :=
    readFold_position_map p _ _ (preState p blk s)
  have hmid_buckets :
      ({ readPathS p (s.position_map.getD blk 0) (preState p blk s) with
        stash := st3 } : State).buckets = s.buckets := hs2b
  have hslot_mid := slotAt_congr hmid_buckets
  have hstale_mem : ∀ j,
      j ∈ staleNodes p (s.position_map.getD blk 0)
        ((List.range (p.heightL + 1)).reverse) ↔
      ∃ l, l ≤ p.heightL ∧
        getNodeOnPath p (s.position_map.getD blk 0) l = j := by
    intro j
    simp only [staleNodes, List.mem_map, List.mem_reverse, List.mem_range]
    constructor
    · rintro ⟨x, hx, hxj⟩
      exact ⟨x, by omega, hxj⟩
    · rintro ⟨x, hx, hxj⟩
      exact ⟨x, by omega, hxj⟩
  have hblk_clean : ∀ j z, j < s.buckets.length →
      z < (s.buckets.getD j []).length → (slotAt s j z).id = blk →
      ∃ l, l ≤ p.heightL ∧
        getNodeOnPath p (s.position_map.getD blk 0) l = j := by
    intro j z hj hz hid
    have hvid : (slotAt s j z).id ≠ invalid_block := by rw [hid]; exact hblkinv
    rcases hwf.clean_bpi j z hj hz (by simp [staleNodes]) hvid with ⟨h, hh, heq⟩
    rw [hid] at heq
    exact ⟨h, hh, heq⟩
  have hpm_len_pre : (preState p blk s).position_map.length =
      p.block_count_N := by
    simp only [preState, List.length_set]
    exact hwf.pm_len
  constructor
  · rw [hmid_buckets]; exact hwf.buckets_len
  · intro j hj
    rw [hmid_buckets] at hj ⊢
    exact hwf.bucket_len j hj
  · show (readPathS p (s.position_map.getD blk 0)
      (preState p blk s)).position_map.length = p.block_count_N
    rw [hs2pm]
    exact hpm_len_pre
  · intro i hi
    show (readPathS p (s.position_map.getD blk 0)
      (preState p blk s)).position_map.getD i 0 < p.leaf_count
    rw [hs2pm]
    by_cases hib : i = blk
    · subst hib
      simp only [preState]
      rw [getD_set_self _ _ _ _ (by rw [hwf.pm_len]; exact hi)]
      exact randomPath_lt p s.rng
    · simp only [preState]
      rw [getD_set_ne _ _ _ _ _ (fun hh => hib hh.symm)]
      exact hwf.pm_range i hi
  · exact h3sorted
  · exact h3keys
  · intro j z hj hz hvid
    rw [hmid_buckets] at hj hz
    rw [hslot_mid] at hvid ⊢
    exact hwf.tree_ids j z hj hz hvid
  · intro j z hj hz hstale hvid
    rw [hmid_buckets] at hj hz
    rw [hslot_mid] at hvid ⊢
    have hnotblk : (slotAt s j z).id ≠ blk := by
      intro hh
      exact hstale ((hstale_mem j).mpr (hblk_clean j z hj hz hh))
    have hnone := hwf.clean_not_in_stash j z hj hz (by simp [staleNodes]) hvid
    have hoff : ∀ l, l ≤ p.heightL →
        getNodeOnPath p (s.position_map.getD blk 0) l ≠ j := by
      intro l hl hh
      exact hstale ((hstale_mem j).mpr ⟨l, hl, hh⟩)
    exact h3none _ hnotblk
      (read_find_offpath p blk s hwf hnone hvid hj hz rfl hoff)
  · intro j z j' z' hj hz hj' hz' _ _ hvid heq
    rw [hmid_buckets] at hj hz hj' hz'
    simp only [hslot_mid] at hvid heq
    exact hwf.clean_unique j z j' z' hj hz hj' hz'
      (by simp [staleNodes]) (by simp [staleNodes]) hvid heq
  · intro j z hj hz hstale hvid
    rw [hmid_buckets] at hj hz
    rw [hslot_mid] at hvid ⊢
    have hnotblk : (slotAt s j z).id ≠ blk := by
      intro hh
      exact hstale ((hstale_mem j).mpr (hblk_clean j z hj hz hh))
    rcases hwf.clean_bpi j z hj hz (by simp [staleNodes]) hvid with ⟨h, hh, heq⟩
    refine ⟨h, hh, ?_⟩
    show getNodeOnPath p ((readPathS p (s.position_map.getD blk 0)
      (preState p blk s)).position_map.getD (slotAt s j z).id 0) h = j
    rw [hs2pm]
    simp only [preState]
    rw [getD_set_ne _ _ _ _ _ (fun hx => hnotblk hx.symm)]
    exact heq

theorem read_stash_keys (p : Params) (blk : Nat) (s : State) (hwf : WF p s) :
    ∀ e ∈ (readPathS p (s.position_map.getD blk 0) (preState p blk s)).stash,
      e.1 < p.block_count_N := by
  intro e he
  rcases readFold_mem p _ _ _ e he with hmem | ⟨l, hl, slot, hslot, hvalid, hid, _⟩
  · exact hwf.stash_keys e hmem
  · have hpre : (preState p blk s).buckets = s.buckets := rfl
    rw [hpre] at hslot
    by_cases hj : getNodeOnPath p (s.position_map.getD blk 0) l < s.buckets.length
    · rcases mem_to_getD hslot { id := invalid_block, data := [] } with ⟨z, hz, hzs⟩
      have hslot_eq : slotAt s (getNodeOnPath p (s.position_map.getD blk 0) l) z =
          slot := hzs
      rw [hid, ← hslot_eq]
      exact hwf.tree_ids _ z hj hz (by rw [hslot_eq]; exact hvalid)
    · rw [getD_oob _ _ _ (by omega)] at hslot
      simp at hslot

theorem midState_winv (p : Params) (hN : p.block_count_N ≤ invalid_block)
    (op : Op) (blk : Nat) (b : Block) (s : State)
    (hblk : blk < p.block_count_N) (hwf : WF p s) :
    WInv p (s.position_map.getD blk 0) ((List.range (p.heightL + 1)).reverse)
      (midState p op blk b s) := by
  have hs2sorted : stashSorted (readPathS p (s.position_map.getD blk 0)
      (preState p blk s)).stash :=
    readFold_sorted p _ _ (preState p blk s) hwf.sorted
  have hs2keys := read_stash_keys p blk s hwf
  cases op with
  | Read =>
      rcases hfound : stashFind? blk (readPathS p (s.position_map.getD blk 0)
          (preState p blk s)).stash with _ | w
      · -- first touch: operator[] inserts a zero block
        exact winv_mid p hN blk s hblk hwf
          (stashGetDefault p blk (readPathS p (s.position_map.getD blk 0)
            (preState p blk s)).stash).2
          (by
            simp only [stashGetDefault, hfound]
            exact stashSorted_emplace hs2sorted)
          (by
            simp only [stashGetDefault, hfound]
            intro e he
            rcases stashEmplace_mem e he with he' | he'
            · rw [he']; exact hblk
            · exact hs2keys e he')
          (by
            intro i hib hin
            simp only [stashGetDefault, hfound]
            rw [stashFind?_emplace_absent hfound i, if_neg hib]
            exact hin)
      · exact winv_mid p hN blk s hblk hwf
          (stashGetDefault p blk (readPathS p (s.position_map.getD blk 0)
            (preState p blk s)).stash).2
          (by simp only [stashGetDefault, hfound]; exact hs2sorted)
          (by simp only [stashGetDefault, hfound]; exact hs2keys)
          (by
            intro i _ hin
            simp only [stashGetDefault, hfound]
            exact hin)
  | Write =>
      exact winv_mid p hN blk s hblk hwf
        (stashAssign blk b (readPathS p (s.position_map.getD blk 0)
          (preState p blk s)).stash)
        (stashSorted_assign hs2sorted)
        (by
          intro e he
          rcases stashAssign_mem e he with he' | he'
          · rw [he']; exact hblk
          · exact hs2keys e he')
        (by
          intro i hib hin
          rw [stashFind?_assign _ i, if_neg hib]
          exact hin)

theorem ls0_le (p : Params) :
    ∀ x ∈ (List.range (p.heightL + 1)).reverse, x ≤ p.heightL := by
  intro x hx
  rw [List.mem_reverse, List.mem_range] at hx
  omega

theorem ls0_nodup (p : Params) :
    ((List.range (p.heightL + 1)).reverse).Nodup := by
  rw [List.nodup_reverse]
  exact List.nodup_range _

theorem access_step_wf (p : Params) (hN : p.block_count_N ≤ invalid_block)
    (op : Op) (blk : Nat) (b : Block) (s : State)
    (hblk : blk < p.block_count_N) (hwf : WF p s) :
    WF p (accessRun p op blk b s).2.1 := by
  have hpos : s.position_map.getD blk 0 < p.leaf_count := hwf.pm_range blk hblk
  have hfold := writePath_fold p hN hpos
    ((List.range (p.heightL + 1)).reverse) (midState p op blk b s)
    (ls0_le p) (ls0_nodup p) (midState_winv p hN op blk b s hblk hwf)
  rw [accessRun_state_eq]
  exact winv_nil_pos p _ 0 hfold.1

theorem midState_buckets (p : Params) (op : Op) (blk : Nat) (b : Block)
    (s : State) : (midState p op blk b s).buckets = s.buckets := by
  cases op <;> exact readFold_buckets p _ _ (preState p blk s)

theorem midState_hasval_final (p : Params) (hN : p.block_count_N ≤ invalid_block)
    (op : Op) (blk : Nat) (b : Block) (s : State)
    (hblk : blk < p.block_count_N) (hwf : WF p s) (k : Nat) (v : Block)
    (h : HasValE (midState p op blk b s)
      (staleNodes p (s.position_map.getD blk 0)
        ((List.range (p.heightL + 1)).reverse)) k v) :
    HasVal (accessRun p op blk b s).2.1 k v := by
  have hpos : s.position_map.getD blk 0 < p.leaf_count := hwf.pm_range blk hblk
  have hfold := writePath_fold p hN hpos
    ((List.range (p.heightL + 1)).reverse) (midState p op blk b s)
    (ls0_le p) (ls0_nodup p) (midState_winv p hN op blk b s hblk hwf)
  rw [accessRun_state_eq]
  exact hfold.2.1 k v h

theorem midState_absent_final (p : Params) (hN : p.block_count_N ≤ invalid_block)
    (op : Op) (blk : Nat) (b : Block) (s : State)
    (hblk : blk < p.block_count_N) (hwf : WF p s) (k : Nat)
    (hkinv : k ≠ invalid_block)
    (h : AbsentE (midState p op blk b s)
      (staleNodes p (s.position_map.getD blk 0)
        ((List.range (p.heightL + 1)).reverse)) k) :
    Absent (accessRun p op blk b s).2.1 k := by
  have hpos : s.position_map.getD blk 0 < p.leaf_count := hwf.pm_range blk hblk
  have hfold := writePath_fold p hN hpos
    ((List.range (p.heightL + 1)).reverse) (midState p op blk b s)
    (ls0_le p) (ls0_nodup p) (midState_winv p hN op blk b s hblk hwf)
  rw [accessRun_state_eq]
  exact hfold.2.2 k hkinv h

theorem stale0_mem (p : Params) (pos : Nat) (j : Nat) :
    j ∈ staleNodes p pos ((List.range (p.heightL + 1)).reverse) ↔
      ∃ l, l ≤ p.heightL ∧ getNodeOnPath p pos l = j := by
  simp only [staleNodes, List.mem_map, List.mem_reverse, List.mem_range]
  constructor
  · rintro ⟨x, hx, hxj⟩
    exact ⟨x, by omega, hxj⟩
  · rintro ⟨x, hx, hxj⟩
    exact ⟨x, by omega, hxj⟩

theorem midState_find_ne (p : Params) (op : Op) (blk : Nat) (b : Block)
    (s : State) {k : Nat} (hk : k ≠ blk) :
    stashFind? k (midState p op blk b s).stash =
      stashFind? k
        (readPathS p (s.position_map.getD blk 0) (preState p blk s)).stash := by
  cases op with
  | Read =>
      rcases hfound : stashFind? blk (readPathS p (s.position_map.getD blk 0)
          (preState p blk s)).stash with _ | w
      · simp only [midState, stashGetDefault, hfound]
        rw [stashFind?_emplace_absent hfound k, if_neg hk]
      · simp only [midState, stashGetDefault, hfound]
  | Write =>
      simp only [midState]
      rw [stashFind?_assign _ k, if_neg hk]

theorem read_blk_found (p : Params) (hN : p.block_count_N ≤ invalid_block)
    (blk : Nat) (s : State) (hblk : blk < p.block_count_N) (hwf : WF p s)
    {v : Block} (h : HasVal s blk v) :
    stashFind? blk
      (readPathS p (s.position_map.getD blk 0) (preState p blk s)).stash =
      some v := by
  rcases h with hst | ⟨hnone, j, z, hj, hz, _, hid, hdata⟩
  · exact read_find_persist p blk s hwf.sorted hst
  · have hbinv : blk ≠ invalid_block := by omega
    rcases hwf.clean_bpi j z hj hz (by simp [staleNodes])
      (by rw [hid]; exact hbinv) with ⟨h0, hh0, heq⟩
    rw [hid] at heq
    exact read_find_onpath p blk s hwf hnone hbinv hj hz hid hdata hh0 heq

theorem read_blk_missing (p : Params) (blk : Nat) (s : State) (hwf : WF p s)
    (h : Absent s blk) :
    stashFind? blk
      (readPathS p (s.position_map.getD blk 0) (preState p blk s)).stash =
      none :=
  read_find_no_occurrence p blk s hwf.sorted h.1
    (fun j z hj hz => h.2 j z hj hz (by simp))

theorem access_step_write (p : Params) (hN : p.block_count_N ≤ invalid_block)
    (blk : Nat) (b : Block) (s : State)
    (hblk : blk < p.block_count_N) (hwf : WF p s) :
    (accessRun p .Write blk b s).1 = b ∧
      HasVal (accessRun p .Write blk b s).2.1 blk b := by
  refine ⟨accessRun_out_eq_write p blk b s, ?_⟩
  refine midState_hasval_final p hN .Write blk b s hblk hwf blk b (Or.inl ?_)
  show stashFind? blk (midState p .Write blk b s).stash = some b
  simp only [midState]
  rw [stashFind?_assign _ blk, if_pos rfl]

theorem access_step_read_hasval (p : Params)
    (hN : p.block_count_N ≤ invalid_block) (blk : Nat) (b : Block) (s : State)
    (hblk : blk < p.block_count_N) (hwf : WF p s) (v : Block)
    (h : HasVal s blk v) :
    (accessRun p .Read blk b s).1 = v ∧
      HasVal (accessRun p .Read blk b s).2.1 blk v := by
  have hfound := read_blk_found p hN blk s hblk hwf h
  constructor
  · rw [accessRun_out_eq_read]
    simp only [stashGetDefault, hfound]
  · refine midState_hasval_final p hN .Read blk b s hblk hwf blk v (Or.inl ?_)
    show stashFind? blk (midState p .Read blk b s).stash = some v
    simp only [midState, stashGetDefault, hfound]

theorem access_step_read_absent (p : Params)
    (hN : p.block_count_N ≤ invalid_block) (blk : Nat) (b : Block) (s : State)
    (hblk : blk < p.block_count_N) (hwf : WF p s) (h : Absent s blk) :
    (accessRun p .Read blk b s).1 = p.zero_block ∧
      HasVal (accessRun p .Read blk b s).2.1 blk p.zero_block := by
  have hmiss := read_blk_missing p blk s hwf h
  constructor
  · rw [accessRun_out_eq_read]
    simp only [stashGetDefault, hmiss]
  · refine midState_hasval_final p hN .Read blk b s hblk hwf blk p.zero_block
      (Or.inl ?_)
    show stashFind? blk (midState p .Read blk b s).stash = some p.zero_block
    simp only [midState, stashGetDefault, hmiss]
    rw [stashFind?_emplace_absent hmiss blk, if_pos rfl]

theorem access_step_preserve_hasval (p : Params)
    (hN : p.block_count_N ≤ invalid_block) (op : Op) (blk : Nat) (b : Block)
    (s : State) (hblk : blk < p.block_count_N) (hwf : WF p s)
    (k : Nat) (v : Block) (hk : k ≠ blk) (hkinv : k ≠ invalid_block)
    (h : HasVal s k v) :
    HasVal (accessRun p op blk b s).2.1 k v := by
  rcases h with hst | ⟨hnone, j, z, hj, hz, _, hid, hdata⟩
  · have h2 := read_find_persist p blk s hwf.sorted hst
    refine midState_hasval_final p hN op blk b s hblk hwf k v (Or.inl ?_)
    rw [midState_find_ne p op blk b s hk]
    exact h2
  · by_cases hpath : ∃ l, l ≤ p.heightL ∧
        getNodeOnPath p (s.position_map.getD blk 0) l = j
    · rcases hpath with ⟨h0, hh0, heq⟩
      have h2 := read_find_onpath p blk s hwf hnone hkinv hj hz hid hdata hh0 heq
      refine midState_hasval_final p hN op blk b s hblk hwf k v (Or.inl ?_)
      rw [midState_find_ne p op blk b s hk]
      exact h2
    · push_neg at hpath
      have h2 := read_find_offpath p blk s hwf hnone hkinv hj hz hid
        (fun l hl => hpath l hl)
      refine midState_hasval_final p hN op blk b s hblk hwf k v (Or.inr ⟨?_, ?_⟩)
      · rw [midState_find_ne p op blk b s hk]
        exact h2
      · refine ⟨j, z, ?_, ?_, ?_, ?_, ?_⟩
        · rw [midState_buckets]; exact hj
        · rw [midState_buckets]; exact hz
        · intro hmem
          rcases (stale0_mem p _ j).mp hmem with ⟨l, hl, hlj⟩
          exact hpath l hl hlj
        · rw [slotAt_congr (midState_buckets p op blk b s)]; exact hid
        · rw [slotAt_congr (midState_buckets p op blk b s)]; exact hdata

theorem access_step_preserve_absent (p : Params)
    (hN : p.block_count_N ≤ invalid_block) (op : Op) (blk : Nat) (b : Block)
    (s : State) (hblk : blk < p.block_count_N) (hwf : WF p s)
    (k : Nat) (hk : k ≠ blk) (hkinv : k ≠ invalid_block) (h : Absent s k) :
    Absent (accessRun p op blk b s).2.1 k := by
  have h2 := read_find_no_occurrence p blk s hwf.sorted h.1
    (fun j z hj hz => h.2 j z hj hz (by simp))
  refine midState_absent_final p hN op blk b s hblk hwf k hkinv ⟨?_, ?_⟩
  · rw [midState_find_ne p op blk b s hk]
    exact h2
  · intro j z hj hz _
    rw [midState_buckets] at hj hz
    rw [slotAt_congr (midState_buckets p op blk b s)]
    exact h.2 j z hj hz (by simp)

theorem access_ok_of_lt (p : Params) (op : Op) (blk : Nat) (b : Block)
    (s : State) (h : blk < p.block_count_N) :
    access p op blk b s = .ok (accessRun p op blk b s) := by
  simp only [access, ge_iff_le, if_neg (by omega : ¬p.block_count_N ≤ blk)]

theorem write_ok_of_lt (p : Params) (blk : Nat) (b : Block) (s : State)
    (h : blk < p.block_count_N) :
    write p blk b s = .ok ((accessRun p .Write blk b s).2.1) := by
  simp only [write, access_ok_of_lt p .Write blk b s h, Except.map]

theorem read_ok_of_lt (p : Params) (blk : Nat) (s : State)
    (h : blk < p.block_count_N) :
    read p blk s = .ok ((accessRun p .Read blk p.zero_block s).1,
      (accessRun p .Read blk p.zero_block s).2.1) := by
  simp only [read, access_ok_of_lt p .Read blk p.zero_block s h, Except.map]

theorem init_spec (p : Params) (rng : Nat → Nat) :
    (init p rng).buckets =
      List.replicate p.bucket_count (List.replicate p.bucketSizeZ p.empty_slot) ∧
    (init p rng).stash = [] ∧
    (init p rng).position_map.length = p.block_count_N ∧
    (∀ i, i < p.block_count_N →
      (init p rng).position_map.getD i 0 = rng i % (p.bucket_count / 2 + 1)) := by
  obtain ⟨hb, hst, hlen, hrng, hpm⟩ := initStep_fold_spec p p.block_count_N
    { buckets :=
        List.replicate p.bucket_count (List.replicate p.bucketSizeZ p.empty_slot),
      position_map := List.replicate p.block_count_N 0,
      stash := [],
      rng := rng }
  refine ⟨hb, hst, ?_, ?_⟩
  · have h1 : (init p rng).position_map.length =
        (List.replicate p.block_count_N (0 : Nat)).length := hlen
    rw [h1, List.length_replicate]
  · intro i hi
    have h2 := hpm i hi (by simpa using hi)
    exact h2

theorem init_slots_invalid (p : Params) (rng : Nat → Nat) :
    ∀ j z, j < (init p rng).buckets.length →
      z < ((init p rng).buckets.getD j []).length →
      (slotAt (init p rng) j z).id = invalid_block := by
  have hbuck := (init_spec p rng).1
  intro j z hj hz
  rw [hbuck] at hj hz
  rw [List.length_replicate] at hj
  rw [getD_replicate _ _ _ _ hj] at hz
  rw [List.length_replicate] at hz
  show (((init p rng).buckets.getD j []).getD z
    { id := invalid_block, data := [] }).id = invalid_block
  rw [hbuck, getD_replicate _ _ _ _ hj, getD_replicate _ _ _ _ hz]
  rfl

theorem init_wf (p : Params) (rng : Nat → Nat) : WF p (init p rng) := by
  obtain ⟨hbuck, hstash, hlen, hpm⟩ := init_spec p rng
  have hinv := init_slots_invalid p rng
  constructor
  · rw [hbuck]
    exact List.length_replicate _ _
  · intro j hj
    rw [hbuck] at hj ⊢
    rw [List.length_replicate] at hj
    rw [getD_replicate _ _ _ _ hj]
    exact List.length_replicate _ _
  · exact hlen
  · intro i hi
    rw [hpm i hi]
    have : rng i % (p.bucket_count / 2 + 1) < p.bucket_count / 2 + 1 :=
      Nat.mod_lt _ (by omega)
    have h1 := bucket_count_div_two p
    have h2 := leaf_count_pos p
    omega
  · show stashSorted (init p rng).stash
    rw [hstash]
    exact stashSorted_nil
  · intro e he
    rw [hstash] at he
    simp at he
  · intro j z hj hz hvid
    exact absurd (hinv j z hj hz) hvid
  · intro j z hj hz _ hvid
    exact absurd (hinv j z hj hz) hvid
  · intro j z j' z' hj hz _ _ _ _ hvid _
    exact absurd (hinv j z hj hz) hvid
  · intro j z hj hz _ hvid
    exact absurd (hinv j z hj hz) hvid

theorem init_absent (p : Params) (rng : Nat → Nat) (k : Nat)
    (hk : k ≠ invalid_block) : Absent (init p rng) k := by
  constructor
  · rw [(init_spec p rng).2.1]
    rfl
  · intro j z hj hz _
    rw [init_slots_invalid p rng j z hj hz]
    exact fun hh => hk hh.symm

/-- States reachable from a freshly constructed engine by completed accesses. -/
inductive Reachable (p : Params) : State → Prop where
  | base (rng : Nat → Nat) : Reachable p (init p rng)
  | step {s : State} (op : Op) (blk : Nat) (b out : Block) {s' : State}
      {ev : List Event} : Reachable p s →
      access p op blk b s = .ok (out, s', ev) → Reachable p s'

theorem reachable_wf (p : Params) (hN : p.block_count_N ≤ invalid_block)
    {s : State} (h : Reachable p s) : WF p s := by
  induction h with
  | base rng => exact init_wf p rng
  | step op blk b out hr hacc ih =>
      by_cases hblk : p.block_count_N ≤ blk
      · simp only [access, ge_iff_le, if_pos hblk] at hacc
        exact Except.noConfusion hacc
      · rw [access_ok_of_lt _ _ _ _ _ (by omega)] at hacc
        injection hacc with hacc'
        have hs' := congrArg (fun r => r.2.1) hacc'
        simp only at hs'
        rw [← hs']
        exact access_step_wf p hN op blk b _ (by omega) ih

/-- C3: block-path invariant.  In every state reached by completed accesses,
every id stored in a tree slot lies in a bucket on the root-to-leaf path of
its current position-map entry: the bucket's heap index `j` equals
`getNodeOnPath(position_map[id], h)` for the level `h` at which the bucket
sits (`2^h - 1 ≤ j < 2^(h+1) - 1`). -/
theorem c3_block_path_invariant (p : Params)
    (hN : p.block_count_N ≤ invalid_block) {s : State}
    (hreach : Reachable p s) :
    ∀ j z, j < s.buckets.length → z < (s.buckets.getD j []).length →
      (slotAt s j z).id ≠ invalid_block →
      ∃ h, h ≤ p.heightL ∧
        getNodeOnPath p (s.position_map.getD (slotAt s j z).id 0) h = j ∧
        2 ^ h - 1 ≤ j ∧ j < 2 ^ (h + 1) - 1 := by
  have hwf := reachable_wf p hN hreach
  intro j z hj hz hvid
  rcases hwf.clean_bpi j z hj hz (by simp [staleNodes]) hvid with ⟨h, hh, heq⟩
  have hpm : s.position_map.getD (slotAt s j z).id 0 < p.leaf_count :=
    hwf.pm_range _ (hwf.tree_ids j z hj hz hvid)
  have hb := getNodeOnPath_level_bounds p hpm hh
  exact ⟨h, hh, heq, by rw [← heq]; exact hb.1, by rw [← heq]; exact hb.2⟩

/-- C4: no duplication.  In every state reached by completed accesses, each id
occupies at most one location across tree and stash: the stash keys are
pairwise distinct, an id present in the stash occupies no tree slot, and any
two tree slots holding the same valid id coincide. -/
theorem c4_no_duplication (p : Params) (hN : p.block_count_N ≤ invalid_block)
    {s : State} (hreach : Reachable p s) :
    (s.stash.map Prod.fst).Nodup ∧
    (∀ e ∈ s.stash, ∀ j z, j < s.buckets.length →
      z < (s.buckets.getD j []).length → (slotAt s j z).id ≠ e.1) ∧
    (∀ j z j' z', j < s.buckets.length → z < (s.buckets.getD j []).length →
      j' < s.buckets.length → z' < (s.buckets.getD j' []).length →
      (slotAt s j z).id ≠ invalid_block →
      (slotAt s j z).id = (slotAt s j' z').id → j = j' ∧ z = z') := by
  have hwf := reachable_wf p hN hreach
  refine ⟨stashKeys_nodup hwf.sorted, ?_, ?_⟩
  · intro e he j z hj hz hid
    have hkey : (stashFind? e.1 s.stash).isSome :=
      (stashFind?_isSome_iff e.1 s.stash).mpr (List.mem_map.mpr ⟨e, he, rfl⟩)
    have heN := hwf.stash_keys e he
    have hinv : (slotAt s j z).id ≠ invalid_block := by rw [hid]; omega
    have hnone := hwf.clean_not_in_stash j z hj hz (by simp [staleNodes]) hinv
    rw [hid] at hnone
    rw [hnone] at hkey
    exact Bool.noConfusion hkey
  · intro j z j' z' hj hz hj' hz' hvid heq
    exact hwf.clean_unique j z j' z' hj hz hj' hz'
      (by simp [staleNodes]) (by simp [staleNodes]) hvid heq

/-- Concrete engine used by several witnesses: `HeightL = 1`, `B = 1`,
`Z = 1` (so `N = 3`), an all-zero RNG stream, and one completed
`write(0, [7])`. -/
def pW : Params := Params.mk 1 1 1

/-- All-zero RNG stream for the witness engine. -/
def rngW : Nat → Nat := fun _ => 0

/-- Witness engine state after one completed `write(0, [7])`. -/
def sW : State := (accessRun pW .Write 0 [7] (init pW rngW)).2.1

theorem sW_reachable : Reachable pW sW :=
  Reachable.step .Write 0 [7] (accessRun pW .Write 0 [7] (init pW rngW)).1
    (Reachable.base rngW)
    (access_ok_of_lt pW .Write 0 [7] (init pW rngW) (by decide))

/-- Witness for `c3_block_path_invariant`: in `sW` the slot `(1, 0)` holds
block `0`, and the theorem places bucket `1` on the path of
`position_map[0]`. -/
theorem c3_block_path_invariant_witness :
    ∃ h, h ≤ pW.heightL ∧
      getNodeOnPath pW (sW.position_map.getD (slotAt sW 1 0).id 0) h = 1 ∧
      2 ^ h - 1 ≤ 1 ∧ 1 < 2 ^ (h + 1) - 1 :=
  c3_block_path_invariant pW (by decide) sW_reachable 1 0 (by decide)
    (by decide) (by decide)

/-- Witness for `c4_no_duplication` at the concrete reachable state `sW`. -/
theorem c4_no_duplication_witness :
    (sW.stash.map Prod.fst).Nodup ∧
    (∀ e ∈ sW.stash, ∀ j z, j < sW.buckets.length →
      z < (sW.buckets.getD j []).length → (slotAt sW j z).id ≠ e.1) ∧
    (∀ j z j' z', j < sW.buckets.length → z < (sW.buckets.getD j []).length →
      j' < sW.buckets.length → z' < (sW.buckets.getD j' []).length →
      (slotAt sW j z).id ≠ invalid_block →
      (slotAt sW j z).id = (slotAt sW j' z').id → j = j' ∧ z = z') :=
  c4_no_duplication pW (by decide) sW_reachable

/-! ### Write sequences and functional correctness -/

/-- Execute a sequence of `write` calls. -/
def execWrites (p : Params) : List (Nat × Block) → State → Except OramError State
  | [], s => .ok s
  | e :: rest, s =>
      match write p e.1 e.2 s with
      | .ok s' => execWrites p rest s'
      | .error err => .error err

/-- Payload of the most recent write to `i` in the sequence (later entries
take precedence). -/
def lastWritten : List (Nat × Block) → Nat → Option Block
  | [], _ => none
  | e :: rest, i =>
      match lastWritten rest i with
      | some v => some v
      | none => if e.1 = i then some e.2 else none

theorem lastWritten_some_mem :
    ∀ (W : List (Nat × Block)) (i : Nat) (v : Block),
      lastWritten W i = some v → ∃ e ∈ W, e.1 = i := by
  intro W
  induction W with
  | nil => intro i v h; exact Option.noConfusion h
  | cons e rest ih =>
      intro i v h
      simp only [lastWritten] at h
      rcases hr : lastWritten rest i with _ | w
      · rw [hr] at h
        simp only at h
        by_cases he : e.1 = i
        · exact ⟨e, List.mem_cons_self _ _, he⟩
        · rw [if_neg he] at h
          exact Option.noConfusion h
      · rcases ih i w hr with ⟨x, hx, hxi⟩
        exact ⟨x, List.mem_cons_of_mem _ hx, hxi⟩

theorem execWrites_spec (p : Params) (hN : p.block_count_N ≤ invalid_block) :
    ∀ (W : List (Nat × Block)) (s : State), WF p s →
      (∀ e ∈ W, e.1 < p.block_count_N) →
      ∃ s', execWrites p W s = .ok s' ∧ WF p s' ∧
        (∀ i v, lastWritten W i = some v → HasVal s' i v) ∧
        (∀ i v, lastWritten W i = none → i ≠ invalid_block →
          HasVal s i v → HasVal s' i v) ∧
        (∀ i, lastWritten W i = none → i ≠ invalid_block →
          Absent s i → Absent s' i) := by
  intro W
  induction W with
  | nil =>
      intro s hwf _
      exact ⟨s, rfl, hwf, fun i v h => Option.noConfusion h,
        fun i v _ _ h => h, fun i _ _ h => h⟩
  | cons e rest ih =>
      intro s hwf hW
      have heN : e.1 < p.block_count_N := hW e (List.mem_cons_self _ _)
      have hrest : ∀ x ∈ rest, x.1 < p.block_count_N :=
        fun x hx => hW x (List.mem_cons_of_mem _ hx)
      have hwf1 : WF p (accessRun p .Write e.1 e.2 s).2.1 :=
        access_step_wf p hN .Write e.1 e.2 s heN hwf
      obtain ⟨s', hexec, hwf', hhas, hpres, habs⟩ :=
        ih (accessRun p .Write e.1 e.2 s).2.1 hwf1 hrest
      have hstep : execWrites p (e :: rest) s = execWrites p rest
          (accessRun p .Write e.1 e.2 s).2.1 := by
        simp only [execWrites, write_ok_of_lt p e.1 e.2 s heN]
      refine ⟨s', by rw [hstep]; exact hexec, hwf', ?_, ?_, ?_⟩
      · intro i v h
        simp only [lastWritten] at h
        rcases hr : lastWritten rest i with _ | w
        · rw [hr] at h
          simp only at h
          by_cases hei : e.1 = i
          · rw [if_pos hei] at h
            have hv : v = e.2 := (Option.some.inj h).symm
            rw [hv, ← hei]
            have hw := access_step_write p hN e.1 e.2 s heN hwf
            exact hpres e.1 e.2 (hei ▸ hr) (by omega) hw.2
          · rw [if_neg hei] at h
            exact Option.noConfusion h
        · rw [hr] at h
          have hv : v = w := (Option.some.inj h.symm)
          rw [hv]
          exact hhas i w hr
      · intro i v h hiinv hival
        simp only [lastWritten] at h
        rcases hr : lastWritten rest i with _ | w
        · rw [hr] at h
          simp only at h
          by_cases hei : e.1 = i
          · rw [if_pos hei] at h
            exact Option.noConfusion h
          · refine hpres i v hr hiinv ?_
            exact access_step_preserve_hasval p hN .Write e.1 e.2 s heN hwf i v
              (fun hh => hei hh.symm) hiinv hival
        · rw [hr] at h
          exact Option.noConfusion h
      · intro i h hiinv hival
        simp only [lastWritten] at h
        rcases hr : lastWritten rest i with _ | w
        · rw [hr] at h
          simp only at h
          by_cases hei : e.1 = i
          · rw [if_pos hei] at h
            exact Option.noConfusion h
          · refine habs i hr hiinv ?_
            exact access_step_preserve_absent p hN .Write e.1 e.2 s heN hwf i
              (fun hh => hei hh.symm) hiinv hival
        · rw [hr] at h
          exact Option.noConfusion h

/-- C1: functional correctness.  For every sequence of writes with ids below
`block_count_N` executed on a fresh engine, reading any written id succeeds
and returns the payload of the most recent write to that id. -/
theorem c1_functional_correctness (p : Params)
    (hN : p.block_count_N ≤ invalid_block) (rng : Nat → Nat)
    (W : List (Nat × Block)) (hW : ∀ e ∈ W, e.1 < p.block_count_N)
    (i : Nat) (v : Block) (hv : lastWritten W i = some v) :
    ∃ s', execWrites p W (init p rng) = .ok s' ∧
      ∃ s'', read p i s' = .ok (v, s'') := by
  obtain ⟨s', hexec, hwf', hhas, _, _⟩ :=
    execWrites_spec p hN W (init p rng) (init_wf p rng) hW
  have hiN : i < p.block_count_N := by
    rcases lastWritten_some_mem W i v hv with ⟨e, he, hei⟩
    rw [← hei]
    exact hW e he
  have hval := hhas i v hv
  have hread := access_step_read_hasval p hN i p.zero_block s' hiN hwf' v hval
  refine ⟨s', hexec, (accessRun p .Read i p.zero_block s').2.1, ?_⟩
  rw [read_ok_of_lt p i s' hiN, hread.1]

/-- Witness for `c1_functional_correctness`: after `write(0,[7]); write(2,[9]);
write(0,[5])` on the `HeightL = 1, Z = 1` engine, `read(0)` returns `[5]`. -/
theorem c1_functional_correctness_witness :
    ∃ s', execWrites pW [(0, [7]), (2, [9]), (0, [5])] (init pW rngW) = .ok s' ∧
      ∃ s'', read pW 0 s' = .ok ([5], s'') :=
  c1_functional_correctness pW (by decide) rngW [(0, [7]), (2, [9]), (0, [5])]
    (by decide) 0 [5] (by decide)

/-! ### First-touch reads -/

/-- Execute a sequence of `access` calls. -/
def execOps (p : Params) :
    List (Op × Nat × Block) → State → Except OramError State
  | [], s => .ok s
  | a :: rest, s =>
      match access p a.1 a.2.1 a.2.2 s with
      | .ok r => execOps p rest r.2.1
      | .error err => .error err

theorem execOps_spec (p : Params) (hN : p.block_count_N ≤ invalid_block) :
    ∀ (A : List (Op × Nat × Block)) (s : State), WF p s →
      (∀ a ∈ A, a.2.1 < p.block_count_N) →
      ∃ s', execOps p A s = .ok s' ∧ WF p s' ∧
        (∀ i, i ≠ invalid_block →
          (∀ a ∈ A, a.2.1 = i → a.1 = .Read) →
          (Absent s i ∨ HasVal s i p.zero_block) →
          (Absent s' i ∨ HasVal s' i p.zero_block)) := by
  intro A
  induction A with
  | nil =>
      intro s hwf _
      exact ⟨s, rfl, hwf, fun i _ _ h => h⟩
  | cons a rest ih =>
      intro s hwf hA
      have haN : a.2.1 < p.block_count_N := hA a (List.mem_cons_self _ _)
      have hrest : ∀ x ∈ rest, x.2.1 < p.block_count_N :=
        fun x hx => hA x (List.mem_cons_of_mem _ hx)
      have hwf1 : WF p (accessRun p a.1 a.2.1 a.2.2 s).2.1 :=
        access_step_wf p hN a.1 a.2.1 a.2.2 s haN hwf
      obtain ⟨s', hexec, hwf', hclause⟩ :=
        ih (accessRun p a.1 a.2.1 a.2.2 s).2.1 hwf1 hrest
      have hstep : execOps p (a :: rest) s = execOps p rest
          (accessRun p a.1 a.2.1 a.2.2 s).2.1 := by
        simp only [execOps, access_ok_of_lt p a.1 a.2.1 a.2.2 s haN]
      refine ⟨s', by rw [hstep]; exact hexec, hwf', ?_⟩
      intro i hiinv hro hstart
      refine hclause i hiinv (fun x hx => hro x (List.mem_cons_of_mem _ hx)) ?_
      by_cases hai : a.2.1 = i
      · have hread : a.1 = .Read := hro a (List.mem_cons_self _ _) hai
        rcases hstart with habs | hhas
        · right
          have := access_step_read_absent p hN a.2.1 a.2.2 s haN hwf
            (hai ▸ habs)
          rw [hread, hai]
          exact (hai ▸ this).2
        · right
          have := access_step_read_hasval p hN a.2.1 a.2.2 s haN hwf
            p.zero_block (hai ▸ hhas)
          rw [hread, hai]
          exact (hai ▸ this).2
      · rcases hstart with habs | hhas
        · exact Or.inl (access_step_preserve_absent p hN a.1 a.2.1 a.2.2 s haN
            hwf i (fun hh => hai hh.symm) hiinv habs)
        · exact Or.inr (access_step_preserve_hasval p hN a.1 a.2.1 a.2.2 s haN
            hwf i p.zero_block (fun hh => hai hh.symm) hiinv hhas)

/-- C5: first-touch reads.  For any id below `block_count_N` that no operation
of the executed sequence has written, `read(id)` succeeds, returns the
zero-filled payload, inserts a zero payload for `id` into the stash during the
access (the `operator[]` default construction after the path read), and
afterwards `id` is stored with the zero payload like any written block; no
error is signaled. -/
theorem c5_first_touch (p : Params) (hN : p.block_count_N ≤ invalid_block)
    (rng : Nat → Nat) (A : List (Op × Nat × Block))
    (hA : ∀ a ∈ A, a.2.1 < p.block_count_N) (i : Nat)
    (hi : i < p.block_count_N) (hnw : ∀ a ∈ A, a.2.1 = i → a.1 = .Read) :
    ∃ s', execOps p A (init p rng) = .ok s' ∧
      stashFind? i (midState p .Read i p.zero_block s').stash =
        some p.zero_block ∧
      ∃ s'', read p i s' = .ok (p.zero_block, s'') ∧
        HasVal s'' i p.zero_block := by
  have hiinv : i ≠ invalid_block := by omega
  obtain ⟨s', hexec, hwf', hclause⟩ :=
    execOps_spec p hN A (init p rng) (init_wf p rng) hA
  have hcur := hclause i hiinv hnw (Or.inl (init_absent p rng i hiinv))
  have hmid : stashFind? i (midState p .Read i p.zero_block s').stash =
      some p.zero_block := by
    rcases hcur with habs | hhas
    · have hmiss := read_blk_missing p i s' hwf' habs
      simp only [midState, stashGetDefault, hmiss]
      rw [stashFind?_emplace_absent hmiss i, if_pos rfl]
    · have hfound := read_blk_found p hN i s' hi hwf' hhas
      simp only [midState, stashGetDefault, hfound]
  rcases hcur with habs | hhas
  · have hread := access_step_read_absent p hN i p.zero_block s' hi hwf' habs
    refine ⟨s', hexec, hmid, (accessRun p .Read i p.zero_block s').2.1, ?_, hread.2⟩
    rw [read_ok_of_lt p i s' hi, hread.1]
  · have hread := access_step_read_hasval p hN i p.zero_block s' hi hwf'
      p.zero_block hhas
    refine ⟨s', hexec, hmid, (accessRun p .Read i p.zero_block s').2.1, ?_, hread.2⟩
    rw [read_ok_of_lt p i s' hi, hread.1]

/-- Witness for `c5_first_touch`: on the `HeightL = 1, Z = 1` engine, after
`write(0,[7])` and `read(1)`, a read of the never-written id `2` returns the
zero block. -/
theorem c5_first_touch_witness :
    ∃ s', execOps pW [(.Write, 0, [7]), (.Read, 1, [0])] (init pW rngW) =
        .ok s' ∧
      stashFind? 2 (midState pW .Read 2 pW.zero_block s').stash =
        some pW.zero_block ∧
      ∃ s'', read pW 2 s' = .ok (pW.zero_block, s'') ∧
        HasVal s'' 2 pW.zero_block :=
  c5_first_touch pW (by decide) rngW [(.Write, 0, [7]), (.Read, 1, [0])]
    (by decide) 2 (by decide) (by decide)

/-! ### Observable bucket traces -/

/-- Bucket indices touched, in order, extracted from an event list (position
map writes are internal and not part of the physical trace). -/
def traceOfEvents (evs : List Event) : List Nat :=
  evs.filterMap (fun ev =>
    match ev with
    | .remap _ => none
    | .bread i => some i
    | .bwrite i => some i)

/-- Bucket indices touched by one access along the path to leaf `pos`: the
`HeightL + 1` bucket reads root-to-leaf followed by the bucket writes
leaf-to-root. -/
def accessTraceOf (p : Params) (pos : Nat) : List Nat :=
  (List.range (p.heightL + 1)).map (getNodeOnPath p pos) ++
    ((List.range (p.heightL + 1)).reverse).map (getNodeOnPath p pos)

/-- Full bucket trace of an access sequence (empty once a call fails). -/
def runTrace (p : Params) : List (Op × Nat × Block) → State → List Nat
  | [], _ => []
  | a :: rest, s =>
      match access p a.1 a.2.1 a.2.2 s with
      | .ok r => traceOfEvents r.2.2 ++ runTrace p rest r.2.1
      | .error _ => []

/-- Bucket trace of an access sequence run on a freshly constructed engine
with raw RNG stream `σ`. -/
def bucketTrace (p : Params) (A : List (Op × Nat × Block)) (σ : Nat → Nat) :
    List Nat :=
  runTrace p A (init p σ)

/-- Stream-coordinate read by each access: an access to id `i` reads the
coordinate at which `position_map[i]` was last drawn (`F i`), then remaps `i`
to the next fresh coordinate. -/
def coords : List (Op × Nat × Block) → (Nat → Nat) → Nat → List Nat
  | [], _, _ => []
  | a :: rest, F, ctr => F a.2.1 :: coords rest (Function.update F a.2.1 ctr) (ctr + 1)

/-- Raw stream determined by finitely many uniform draws. -/
def streamOf {n C : Nat} (σ : Fin n → Fin C) : Nat → Nat :=
  fun k => if h : k < n then (σ ⟨k, h⟩).val else 0

theorem traceOfEvents_cons_remap (i : Nat) (evs : List Event) :
    traceOfEvents (Event.remap i :: evs) = traceOfEvents evs := by
  simp [traceOfEvents, List.filterMap_cons]

theorem traceOfEvents_append (a b : List Event) :
    traceOfEvents (a ++ b) = traceOfEvents a ++ traceOfEvents b := by
  simp [traceOfEvents, List.filterMap_append]

theorem traceOfEvents_map_bread (f : Nat → Nat) (xs : List Nat) :
    traceOfEvents (xs.map (fun l => Event.bread (f l))) = xs.map f := by
  induction xs with
  | nil => rfl
  | cons x xs ih =>
      simp only [List.map_cons, traceOfEvents, List.filterMap_cons] at ih ⊢
      rw [ih]

theorem traceOfEvents_map_bwrite (f : Nat → Nat) (xs : List Nat) :
    traceOfEvents (xs.map (fun l => Event.bwrite (f l))) = xs.map f := by
  induction xs with
  | nil => rfl
  | cons x xs ih =>
      simp only [List.map_cons, traceOfEvents, List.filterMap_cons] at ih ⊢
      rw [ih]

theorem traceOfEvents_accessRun (p : Params) (op : Op) (blk : Nat) (b : Block)
    (s : State) :
    traceOfEvents (accessRun p op blk b s).2.2 =
      accessTraceOf p (s.position_map.getD blk 0) := by
  rw [accessRun_events, traceOfEvents_cons_remap, traceOfEvents_append,
    traceOfEvents_map_bread, traceOfEvents_map_bwrite, accessTraceOf]

theorem coords_length :
    ∀ (A : List (Op × Nat × Block)) (F : Nat → Nat) (ctr : Nat),
      (coords A F ctr).length = A.length := by
  intro A
  induction A with
  | nil => intro F ctr; rfl
  | cons a rest ih =>
      intro F ctr
      simp only [coords, List.length_cons, ih]

theorem coords_shape (N : Nat) :
    ∀ (A : List (Op × Nat × Block)) (F : Nat → Nat) (ctr : Nat),
      (∀ a ∈ A, a.2.1 < N) →
      ∀ c ∈ coords A F ctr, (∃ i, i < N ∧ c = F i) ∨ ctr ≤ c := by
  intro A
  induction A with
  | nil => intro F ctr _ c hc; simp [coords] at hc
  | cons a rest ih =>
      intro F ctr hA c hc
      simp only [coords, List.mem_cons] at hc
      rcases hc with hc | hc
      · exact Or.inl ⟨a.2.1, hA a (List.mem_cons_self _ _), hc⟩
      · rcases ih (Function.update F a.2.1 ctr) (ctr + 1)
          (fun x hx => hA x (List.mem_cons_of_mem _ hx)) c hc with hl | hr
        · rcases hl with ⟨i, hi, hci⟩
          by_cases hia : i = a.2.1
          · rw [hia, Function.update_same] at hci
            exact Or.inr (by omega)
          · rw [Function.update_noteq hia] at hci
            exact Or.inl ⟨i, hi, hci⟩
        · exact Or.inr (by omega)

theorem coords_bound (N : Nat) :
    ∀ (A : List (Op × Nat × Block)) (F : Nat → Nat) (ctr : Nat),
      (∀ a ∈ A, a.2.1 < N) → (∀ i, i < N → F i < ctr) →
      ∀ c ∈ coords A F ctr, c < ctr + A.length := by
  intro A
  induction A with
  | nil => intro F ctr _ _ c hc; simp [coords] at hc
  | cons a rest ih =>
      intro F ctr hA hF c hc
      simp only [coords, List.mem_cons] at hc
      rcases hc with hc | hc
      · rw [hc]
        have := hF a.2.1 (hA a (List.mem_cons_self _ _))
        simp only [List.length_cons]
        omega
      · have hF' : ∀ i, i < N → Function.update F a.2.1 ctr i < ctr + 1 := by
          intro i hi
          by_cases hia : i = a.2.1
          · rw [hia, Function.update_same]; omega
          · rw [Function.update_noteq hia]
            have := hF i hi
            omega
        have := ih (Function.update F a.2.1 ctr) (ctr + 1)
          (fun x hx => hA x (List.mem_cons_of_mem _ hx)) hF' c hc
        simp only [List.length_cons]
        omega

theorem coords_nodup (N : Nat) :
    ∀ (A : List (Op × Nat × Block)) (F : Nat → Nat) (ctr : Nat),
      (∀ a ∈ A, a.2.1 < N) → (∀ i, i < N → F i < ctr) →
      (∀ i j, i < N → j < N → F i = F j → i = j) →
      (coords A F ctr).Nodup := by
  intro A
  induction A with
  | nil => intro F ctr _ _ _; simp [coords]
  | cons a rest ih =>
      intro F ctr hA hF hinj
      have haN : a.2.1 < N := hA a (List.mem_cons_self _ _)
      have hF' : ∀ i, i < N → Function.update F a.2.1 ctr i < ctr + 1 := by
        intro i hi
        by_cases hia : i = a.2.1
        · rw [hia, Function.update_same]; omega
        · rw [Function.update_noteq hia]
          have := hF i hi
          omega
      have hinj' : ∀ i j, i < N → j < N →
          Function.update F a.2.1 ctr i = Function.update F a.2.1 ctr j →
          i = j := by
        intro i j hi hj hij
        by_cases hia : i = a.2.1 <;> by_cases hja : j = a.2.1
        · rw [hia, hja]
        · rw [hia, Function.update_same] at hij
          rw [Function.update_noteq hja] at hij
          have := hF j hj
          omega
        · rw [hja, Function.update_same] at hij
          rw [Function.update_noteq hia] at hij
          have := hF i hi
          omega
        · rw [Function.update_noteq hia, Function.update_noteq hja] at hij
          exact hinj i j hi hj hij
      simp only [coords, List.nodup_cons]
      refine ⟨?_, ih (Function.update F a.2.1 ctr) (ctr + 1)
        (fun x hx => hA x (List.mem_cons_of_mem _ hx)) hF' hinj'⟩
      intro hmem
      rcases coords_shape N rest (Function.update F a.2.1 ctr) (ctr + 1)
          (fun x hx => hA x (List.mem_cons_of_mem _ hx)) _ hmem with hl | hr
      · rcases hl with ⟨i, hi, hci⟩
        by_cases hia : i = a.2.1
        · rw [hia, Function.update_same] at hci
          have := hF a.2.1 haN
          omega
        · rw [Function.update_noteq hia] at hci
          exact hia (hinj i a.2.1 hi haN hci.symm)
      · have := hF a.2.1 haN
        omega

theorem init_rng (p : Params) (rng : Nat → Nat) :
    (init p rng).rng = fun k => rng (p.block_count_N + k) := by
  obtain ⟨_, _, _, hrng, _⟩ := initStep_fold_spec p p.block_count_N
    { buckets :=
        List.replicate p.bucket_count (List.replicate p.bucketSizeZ p.empty_slot),
      position_map := List.replicate p.block_count_N 0,
      stash := [],
      rng := rng }
  exact hrng

theorem runTrace_coords (p : Params) (σ : Nat → Nat) :
    ∀ (A : List (Op × Nat × Block)) (s : State) (F : Nat → Nat) (ctr : Nat),
      (∀ a ∈ A, a.2.1 < p.block_count_N) →
      s.position_map.length = p.block_count_N →
      (∀ i, i < p.block_count_N →
        s.position_map.getD i 0 = σ (F i) % (p.bucket_count / 2 + 1)) →
      s.rng = (fun n => σ (ctr + n)) →
      runTrace p A s =
        ((coords A F ctr).map
          (fun c => accessTraceOf p (σ c % (p.bucket_count / 2 + 1)))).join := by
  intro A
  induction A with
  | nil => intro s F ctr _ _ _ _; rfl
  | cons a rest ih =>
      intro s F ctr hA hlen hpm hrng
      have haN : a.2.1 < p.block_count_N := hA a (List.mem_cons_self _ _)
      have hstep : runTrace p (a :: rest) s =
          traceOfEvents (accessRun p a.1 a.2.1 a.2.2 s).2.2 ++
            runTrace p rest (accessRun p a.1 a.2.1 a.2.2 s).2.1 := by
        simp only [runTrace, access_ok_of_lt p a.1 a.2.1 a.2.2 s haN]
      rw [hstep, traceOfEvents_accessRun, hpm a.2.1 haN]
      simp only [coords, List.map_cons, List.join_cons]
      congr 1
      refine ih (accessRun p a.1 a.2.1 a.2.2 s).2.1
        (Function.update F a.2.1 ctr) (ctr + 1)
        (fun x hx => hA x (List.mem_cons_of_mem _ hx)) ?_ ?_ ?_
      · rw [accessRun_position_map, List.length_set]
        exact hlen
      · intro i hi
        rw [accessRun_position_map]
        by_cases hia : i = a.2.1
        · rw [hia, getD_set_self _ _ _ _ (by rw [hlen]; exact haN),
            Function.update_same]
          simp only [randomPath, hrng]
          rw [Nat.add_zero]
        · rw [getD_set_ne _ _ _ _ _ (fun hh => hia hh.symm),
            Function.update_noteq hia]
          exact hpm i hi
      · rw [accessRun_rng]
        funext n
        simp only [randomPath, hrng]
        congr 1
        omega

theorem bucketTrace_coords (p : Params) (σ : Nat → Nat)
    (A : List (Op × Nat × Block)) (hA : ∀ a ∈ A, a.2.1 < p.block_count_N) :
    bucketTrace p A σ =
      ((coords A (fun i => i) p.block_count_N).map
        (fun c => accessTraceOf p (σ c % (p.bucket_count / 2 + 1)))).join := by
  refine runTrace_coords p σ A (init p σ) (fun i => i) p.block_count_N hA
    (init_spec p σ).2.2.1 ?_ (init_rng p σ)
  intro i hi
  exact (init_spec p σ).2.2.2 i hi

theorem getD_range (n z : Nat) (h : z < n) : (List.range n).getD z 0 = z := by
  rw [List.getD_eq_getElem?_getD, List.getElem?_range h]
  rfl

theorem accessTraceOf_length (p : Params) (pos : Nat) :
    (accessTraceOf p pos).length = 2 * (p.heightL + 1) := by
  simp only [accessTraceOf, List.length_append, List.length_map,
    List.length_range, List.length_reverse]
  omega

theorem accessTraceOf_inj (p : Params) {pos pos' : Nat}
    (h : accessTraceOf p pos = accessTraceOf p pos') : pos = pos' := by
  have key : ∀ q, (accessTraceOf p q).getD p.heightL 0 = q + p.leaf_count - 1 := by
    intro q
    rw [accessTraceOf, getD_append_lt _ _ _ _
      (by rw [List.length_map, List.length_range]; omega)]
    rw [getD_map_lt _ _ _ _ 0 (by rw [List.length_range]; omega)]
    rw [getD_range _ _ (by omega)]
    exact getNodeOnPath_leaf p q
  have h1 := key pos
  have h2 := key pos'
  rw [h] at h1
  rw [h2] at h1
  have := leaf_count_pos p
  omega

theorem expand_join_inj (p : Params) :
    ∀ u u' : List Nat, u.length = u'.length →
      (u.map (accessTraceOf p)).join = (u'.map (accessTraceOf p)).join →
      u = u' := by
  intro u
  induction u with
  | nil =>
      intro u' hlen _
      cases u' with
      | nil => rfl
      | cons y u1' => simp at hlen
  | cons x u1 ih =>
      intro u' hlen hj
      cases u' with
      | nil => simp at hlen
      | cons y u1' =>
          simp only [List.map_cons, List.join_cons] at hj
          have hlen2 : (accessTraceOf p x).length = (accessTraceOf p y).length := by
            rw [accessTraceOf_length, accessTraceOf_length]
          have hsplit := List.append_inj hj hlen2
          have hx := accessTraceOf_inj p hsplit.1
          rw [hx]
          have hlen1 : u1.length = u1'.length := by simpa using hlen
          rw [ih u1' hlen1 hsplit.2]

theorem getD_eq_get {α : Type} (l : List α) (z : Nat) (d : α)
    (h : z < l.length) : l.getD z d = l.get ⟨z, h⟩ := by
  rw [List.getD_eq_getElem?_getD, List.getElem?_eq_getElem h]
  rfl

theorem card_fixed_proj (n C : Nat) (cs : List Nat) (hnd : cs.Nodup)
    (hb : ∀ c ∈ cs, c < n) (u : List Nat) (hu : u.length = cs.length)
    (hub : ∀ x ∈ u, x < C) :
    (Finset.univ.filter
      (fun σ : Fin n → Fin C => cs.map (streamOf σ) = u)).card
      = C ^ (n - cs.length) := by
  have hlt : ∀ {c : Nat}, c ∈ cs → cs.indexOf c < u.length := by
    intro c hc
    rw [hu]
    exact List.indexOf_lt_length.mpr hc
  have hval : ∀ {c : Nat}, c ∈ cs → u.getD (cs.indexOf c) 0 < C :=
    fun hc => hub _ (getD_mem u _ 0 (hlt hc))
  have hcard1 : (Finset.univ.filter
      (fun σ : Fin n → Fin C => cs.map (streamOf σ) = u)).card
      = Fintype.card ({x : Fin n // x.val ∉ cs} → Fin C) := by
    rw [← Finset.card_univ]
    refine Finset.card_bij'
      (fun σ _ => fun x => σ x.1)
      (fun g _ => fun i => if h : i.val ∈ cs
        then ⟨u.getD (cs.indexOf i.val) 0, hval h⟩ else g ⟨i, h⟩)
      (fun σ _ => Finset.mem_univ _) ?_ ?_ ?_
    · intro g _
      simp only [Finset.mem_filter, Finset.mem_univ, true_and]
      refine List.ext_get (by rw [List.length_map, hu]) ?_
      intro z h1 h2
      have hzcs : z < cs.length := by
        rw [List.length_map] at h1
        exact h1
      rw [List.get_map]
      have hcmem : cs.get ⟨z, hzcs⟩ ∈ cs := List.get_mem cs z hzcs
      have hcn : (cs.get ⟨z, hzcs⟩ : Nat) < n := hb _ hcmem
      simp only [streamOf, dif_pos hcn, dif_pos hcmem]
      rw [List.get_indexOf hnd ⟨z, hzcs⟩]
      show u.getD z 0 = u.get ⟨z, h2⟩
      exact getD_eq_get u z 0 h2
    · intro σ hσ
      simp only [Finset.mem_filter, Finset.mem_univ, true_and] at hσ
      funext i
      by_cases h : i.val ∈ cs
      · simp only [dif_pos h]
        have hi : i.val < n := i.isLt
        have hidx : cs.indexOf i.val < cs.length :=
          List.indexOf_lt_length.mpr h
        have hval2 : u.getD (cs.indexOf i.val) 0 = (σ i).val := by
          rw [← hσ, getD_map_lt _ _ _ 0 0 hidx]
          have hcback : cs.getD (cs.indexOf i.val) 0 = i.val := by
            rw [getD_eq_get cs _ 0 hidx]
            exact List.indexOf_get hidx
          rw [hcback]
          simp only [streamOf, dif_pos hi]
        exact Fin.ext hval2
      · simp only [dif_neg h]
    · intro g _
      funext x
      simp only [dif_neg x.2]
  rw [hcard1, Fintype.card_fun, Fintype.card_fin]
  congr 1
  rw [Fintype.card_subtype]
  have hsum : (Finset.univ.filter (fun x : Fin n => x.val ∈ cs)).card +
      (Finset.univ.filter (fun x : Fin n => ¬ x.val ∈ cs)).card =
      Finset.univ.card :=
    Finset.filter_card_add_filter_neg_card_eq_card _
  have hin : (Finset.univ.filter (fun x : Fin n => x.val ∈ cs)).card =
      cs.length := by
    rw [← List.toFinset_card_of_nodup hnd]
    refine Finset.card_bij'
      (fun x _ => x.val)
      (fun c hc => ⟨c, hb c (List.mem_toFinset.mp hc)⟩) ?_ ?_ ?_ ?_
    · intro x hx
      simp only [Finset.mem_filter, Finset.mem_univ, true_and] at hx
      exact List.mem_toFinset.mpr hx
    · intro c hc
      simp only [Finset.mem_filter, Finset.mem_univ, true_and]
      exact List.mem_toFinset.mp hc
    · intro x _
      rfl
    · intro c _
      rfl
  rw [Finset.card_univ, Fintype.card_fin] at hsum
  have hle : cs.length ≤ n := by omega
  omega

theorem bucket_half_succ (p : Params) :
    p.bucket_count / 2 + 1 = p.leaf_count := by
  have h1 := bucket_count_div_two p
  have h2 := leaf_count_pos p
  omega

/-- Number of RNG streams (finitely many uniform leaf draws: the
`block_count_N` construction draws plus one remap draw per access) under
which the engine produces bucket trace `t` on access sequence `A`. -/
def traceCount (p : Params) (A : List (Op × Nat × Block)) (t : List Nat) :
    Nat :=
  (Finset.univ.filter
    (fun σ : Fin (p.block_count_N + A.length) → Fin p.leaf_count =>
      bucketTrace p A (streamOf σ) = t)).card

theorem bucketTrace_eq_proj (p : Params) (A : List (Op × Nat × Block))
    (hA : ∀ a ∈ A, a.2.1 < p.block_count_N)
    (σ : Fin (p.block_count_N + A.length) → Fin p.leaf_count) :
    bucketTrace p A (streamOf σ) =
      (((coords A (fun i => i) p.block_count_N).map (streamOf σ)).map
        (accessTraceOf p)).join := by
  rw [bucketTrace_coords p (streamOf σ) A hA, List.map_map]
  apply congrArg List.join
  apply List.map_congr_left
  intro c hc
  have hcn : c < p.block_count_N + A.length :=
    coords_bound p.block_count_N A (fun i => i) p.block_count_N hA
      (fun i hi => hi) c hc
  show accessTraceOf p (streamOf σ c % (p.bucket_count / 2 + 1)) =
    accessTraceOf p (streamOf σ c)
  congr 1
  rw [bucket_half_succ]
  apply Nat.mod_eq_of_lt
  simp only [streamOf, dif_pos hcn]
  exact (σ ⟨c, hcn⟩).isLt

theorem traceCount_of_valid (p : Params) (A : List (Op × Nat × Block))
    (hA : ∀ a ∈ A, a.2.1 < p.block_count_N) (u : List Nat)
    (hu : u.length = A.length) (hub : ∀ x ∈ u, x < p.leaf_count) :
    traceCount p A ((u.map (accessTraceOf p)).join) =
      p.leaf_count ^ p.block_count_N := by
  have hcs_len : (coords A (fun i => i) p.block_count_N).length = A.length :=
    coords_length A _ _
  have hcs_nd : (coords A (fun i => i) p.block_count_N).Nodup :=
    coords_nodup p.block_count_N A _ _ hA (fun i hi => hi)
      (fun i j _ _ h => h)
  have hcs_b : ∀ c ∈ coords A (fun i => i) p.block_count_N,
      c < p.block_count_N + A.length :=
    fun c hc => coords_bound p.block_count_N A _ _ hA (fun i hi => hi) c hc
  have hfc : ∀ σ : Fin (p.block_count_N + A.length) → Fin p.leaf_count,
      bucketTrace p A (streamOf σ) = (u.map (accessTraceOf p)).join ↔
        (coords A (fun i => i) p.block_count_N).map (streamOf σ) = u := by
    intro σ
    constructor
    · intro h
      rw [bucketTrace_eq_proj p A hA σ] at h
      refine expand_join_inj p _ u ?_ h
      rw [List.length_map, hcs_len, hu]
    · intro h
      rw [bucketTrace_eq_proj p A hA σ, h]
  rw [traceCount, Finset.filter_congr (fun σ _ => hfc σ),
    card_fixed_proj (p.block_count_N + A.length) p.leaf_count _ hcs_nd hcs_b u
      (by rw [hu, hcs_len]) hub]
  congr 1
  rw [hcs_len]
  omega

theorem traceCount_of_invalid (p : Params) (A : List (Op × Nat × Block))
    (hA : ∀ a ∈ A, a.2.1 < p.block_count_N) (t : List Nat)
    (hno : ∀ u : List Nat, u.length = A.length →
      (∀ x ∈ u, x < p.leaf_count) → (u.map (accessTraceOf p)).join ≠ t) :
    traceCount p A t = 0 := by
  rw [traceCount, Finset.card_eq_zero, Finset.filter_eq_empty_iff]
  intro σ _
  intro hσ
  refine hno ((coords A (fun i => i) p.block_count_N).map (streamOf σ))
    ?_ ?_ ?_
  · rw [List.length_map, coords_length]
  · intro x hx
    rw [List.mem_map] at hx
    obtain ⟨c, hc, hxc⟩ := hx
    have hcn : c < p.block_count_N + A.length :=
      coords_bound p.block_count_N A (fun i => i) p.block_count_N hA
        (fun i hi => hi) c hc
    rw [← hxc]
    simp only [streamOf, dif_pos hcn]
    exact (σ ⟨c, hcn⟩).isLt
  · rw [← bucketTrace_eq_proj p A hA σ]
    exact hσ

/-- C2: Obliviousness. For any two access sequences `A` and `B` of equal
length whose every id is below `block_count_N`, the distributions over
observed bucket-index traces are identical: the underlying uniform sample
spaces of RNG streams have the same size, and for every candidate trace `t`
the number of streams on which `A` produces `t` equals the number of streams
on which `B` produces `t` — so the physical access trace is statistically
independent of the logical operations, ids and payloads. -/
theorem c2_oblivious_traces (p : Params) (A B : List (Op × Nat × Block))
    (hA : ∀ a ∈ A, a.2.1 < p.block_count_N)
    (hB : ∀ b ∈ B, b.2.1 < p.block_count_N)
    (hlen : A.length = B.length) (t : List Nat) :
    Fintype.card (Fin (p.block_count_N + A.length) → Fin p.leaf_count) =
      Fintype.card (Fin (p.block_count_N + B.length) → Fin p.leaf_count) ∧
    traceCount p A t = traceCount p B t := by
  constructor
  · rw [hlen]
  · by_cases hex : ∃ u : List Nat, u.length = A.length ∧
        (∀ x ∈ u, x < p.leaf_count) ∧ (u.map (accessTraceOf p)).join = t
    · obtain ⟨u, hu1, hu2, hu3⟩ := hex
      rw [← hu3, traceCount_of_valid p A hA u hu1 hu2,
        traceCount_of_valid p B hB u (by rw [hu1, hlen]) hu2]
    · push_neg at hex
      have hexB : ∀ u : List Nat, u.length = B.length →
          (∀ x ∈ u, x < p.leaf_count) →
          (u.map (accessTraceOf p)).join ≠ t :=
        fun u hu1 hu2 => hex u (hu1.trans hlen.symm) hu2
      rw [traceCount_of_invalid p A hA t hex,
        traceCount_of_invalid p B hB t hexB]

/-- Concrete access sequences for the C2 witness: a write to id 0 and a
read of id 2, both valid for the small parameter set `pW`. -/
def c2A : List (Op × Nat × Block) := [(Op.Write, 0, [5])]

def c2B : List (Op × Nat × Block) := [(Op.Read, 2, [])]

theorem c2_oblivious_traces_witness :
    ((∀ a ∈ c2A, a.2.1 < pW.block_count_N) ∧
      (∀ b ∈ c2B, b.2.1 < pW.block_count_N) ∧
      c2A.length = c2B.length) ∧
    (Fintype.card (Fin (pW.block_count_N + c2A.length) → Fin pW.leaf_count) =
      Fintype.card (Fin (pW.block_count_N + c2B.length) → Fin pW.leaf_count) ∧
    traceCount pW c2A [0, 1, 1, 0] = traceCount pW c2B [0, 1, 1, 0]) :=
  ⟨⟨by decide, by decide, rfl⟩,
    c2_oblivious_traces pW c2A c2B (by decide) (by decide) rfl [0, 1, 1, 0]⟩

/-- C10 counterexample. The source constructor is `PathORAM() : …, rd(),
mt(rd())`: it accepts no seed parameter, and always seeds its `mt19937`
from the `std::random_device` entropy source. Construction is therefore a
function of entropy the caller cannot supply or repeat: two engines built
by the same (only) constructor call, on the same access sequence, can
produce different bucket traces, so the claimed seed-based reproducibility
is not available through the interface. -/
theorem c10_seed_counterexample :
    ∃ entropy1 entropy2 : Nat → Nat,
      runTrace pW [(Op.Write, 0, [5])] (init pW entropy1) ≠
        runTrace pW [(Op.Write, 0, [5])] (init pW entropy2) := by
  refine ⟨fun _ => 0, fun _ => 1, ?_⟩
  decide

/-- C10 (amended): construction takes no seed — the engine always seeds
itself from system entropy. Reproducibility holds at the level of the RNG
stream: two engines whose generators deliver the same draws on the first
`block_count_N + |A|` coordinates (the only ones an `|A|`-access run
consumes: `N` construction draws plus one remap per access) produce
identical sequences of touched bucket indices on the same access
sequence `A`. -/
theorem c10_reproducibility_amended (p : Params)
    (A : List (Op × Nat × Block))
    (hA : ∀ a ∈ A, a.2.1 < p.block_count_N) (σ1 σ2 : Nat → Nat)
    (hagree : ∀ k, k < p.block_count_N + A.length → σ1 k = σ2 k) :
    runTrace p A (init p σ1) = runTrace p A (init p σ2) := by
  show bucketTrace p A σ1 = bucketTrace p A σ2
  rw [bucketTrace_coords p σ1 A hA, bucketTrace_coords p σ2 A hA]
  apply congrArg List.join
  apply List.map_congr_left
  intro c hc
  have hcn : c < p.block_count_N + A.length :=
    coords_bound p.block_count_N A (fun i => i) p.block_count_N hA
      (fun i hi => hi) c hc
  rw [hagree c hcn]

theorem c10_reproducibility_amended_witness :
    ((∀ a ∈ [((Op.Read : Op), (1 : Nat), ([] : Block))],
        a.2.1 < pW.block_count_N) ∧
      (∀ k, k < pW.block_count_N +
          [((Op.Read : Op), (1 : Nat), ([] : Block))].length →
        (fun n => n % 2) k = (fun n => if n < 5 then n % 2 else 9) k)) ∧
    runTrace pW [((Op.Read : Op), (1 : Nat), ([] : Block))]
        (init pW (fun n => n % 2)) =
      runTrace pW [((Op.Read : Op), (1 : Nat), ([] : Block))]
        (init pW (fun n => if n < 5 then n % 2 else 9)) :=
  ⟨⟨by decide, by decide⟩,
    c10_reproducibility_amended pW [((Op.Read : Op), (1 : Nat), ([] : Block))]
      (by decide) (fun n => n % 2) (fun n => if n < 5 then n % 2 else 9)
      (by decide)⟩

end PathORAM
